import Mathlib

/-!
Verification of the core logic of `src/app.py` (spordle / "Guessify" backend).

The Python functions `normalize_title`, `has_latin_characters`,
`_collect_candidate_tracks`, the `/api/seed-track` handler (`seed_track`) and
the `/api/check-guess` handler (`check_guess`) are shallowly embedded below as
pure Lean functions over `String` / `List Char`.

Modelling conventions:
* Python `re` character classes are modelled at their ASCII meaning
  (`\w` = `[A-Za-z0-9_]`, `\s` = `[ \t\n\r\x0b\x0c]`), and `str.lower()` as
  ASCII lowercasing; all concrete titles in the specification are ASCII.
* `rapidfuzz.fuzz.ratio` is the normalized Indel similarity
  `100 * (|a| + |b| - dist) / (|a| + |b|)`; it is modelled exactly over `ℚ`
  (the C implementation computes the same value as a double).
* Randomness (`random.shuffle`, `random.choice`) is modelled by explicit
  parameters: an arbitrary permutation function for the pool shuffle, and an
  arbitrary index for the choice of the picked track.
* The Flask session is modelled as an explicit `SessionState` value threading
  through `seed_track`; network failures of the three Spotify queries are
  modelled with `Except Unit`.
-/

set_option maxRecDepth 4000

/-! ### Character classes (ASCII semantics of Python `re` / `str`) -/

/-- Python regex `\w` (ASCII): letters, digits, underscore. -/
def isWordChar (c : Char) : Bool :=
  (decide ('a' ≤ c) && decide (c ≤ 'z')) ||
  (decide ('A' ≤ c) && decide (c ≤ 'Z')) ||
  (decide ('0' ≤ c) && decide (c ≤ '9')) ||
  decide (c = '_')

/-- Python regex `\s` (ASCII): space, tab, newline, carriage return,
vertical tab, form feed. -/
def isSpaceChar (c : Char) : Bool :=
  decide (c = ' ') || decide (c = '\t') || decide (c = '\n') ||
  decide (c = '\r') || decide (c = '\x0b') || decide (c = '\x0c')

/-- ASCII lowercasing of one character, as done by Python `str.lower()`
on ASCII input. -/
def pyLowerChar (c : Char) : Char :=
  match c with
  | 'A' => 'a' | 'B' => 'b' | 'C' => 'c' | 'D' => 'd' | 'E' => 'e'
  | 'F' => 'f' | 'G' => 'g' | 'H' => 'h' | 'I' => 'i' | 'J' => 'j'
  | 'K' => 'k' | 'L' => 'l' | 'M' => 'm' | 'N' => 'n' | 'O' => 'o'
  | 'P' => 'p' | 'Q' => 'q' | 'R' => 'r' | 'S' => 's' | 'T' => 't'
  | 'U' => 'u' | 'V' => 'v' | 'W' => 'w' | 'X' => 'x' | 'Y' => 'y'
  | 'Z' => 'z'
  | c => c

/-- `s.lower()` on a character list. -/
def pyLower (l : List Char) : List Char := l.map pyLowerChar

/-- The three "hyphen-like" dash characters of the split pattern
`\s[-–—]\s`: hyphen, en dash, em dash. -/
def isDashChar (c : Char) : Bool :=
  decide (c = '-') || decide (c = '–') || decide (c = '—')

/-! ### Stage 2: `re.sub(r'\(...\)', ' ', s)` and friends

`re.sub(r'\([^)]*\)', ' ', s)` replaces every span from an opening delimiter
up to the *first* closing delimiter after it by a single space; an opening
delimiter with no later closing delimiter is left in place.  The scan below
buffers (in reverse) the characters of a tentative span; if the close is
found, the whole span becomes one space, otherwise the buffer is flushed
verbatim at the end of the input (no closing delimiter exists there, so no
further match can start inside it). -/

def stripSpanGo (o c : Char) : Option (List Char) → List Char → List Char
  | none, [] => []
  | some b, [] => b.reverse
  | none, x :: xs =>
    if x = o then stripSpanGo o c (some [x]) xs
    else x :: stripSpanGo o c none xs
  | some b, x :: xs =>
    if x = c then ' ' :: stripSpanGo o c none xs
    else stripSpanGo o c (some (x :: b)) xs

/-- One bracketed-span removal pass (`(...)`, `[...]` or `{...}`). -/
def stripSpan (o c : Char) (l : List Char) : List Char :=
  stripSpanGo o c none l

/-! ### Stage 3: `re.sub(r'\b(?:feat|ft|featuring)\b[.:]?\s*.*$', ' ', s)` -/

/-- Word boundary after a matched word: end of input or a non-word char. -/
def boundaryOk (l : List Char) : Bool :=
  match l with
  | [] => true
  | c :: _ => !isWordChar c

/-- Try to match `(?:feat|ft|featuring)\b` at the head of `l`; on success
return the rest after the matched word.  The regex alternation tries `feat`
first, but the trailing `\b` makes at most one alternative succeed, so
pattern-matching the longest literal first is equivalent. -/
def matchFeatWord (l : List Char) : Option (List Char) :=
  match l with
  | 'f' :: 'e' :: 'a' :: 't' :: 'u' :: 'r' :: 'i' :: 'n' :: 'g' :: rest =>
    if boundaryOk rest then some rest else none
  | 'f' :: 'e' :: 'a' :: 't' :: rest =>
    if boundaryOk rest then some rest else none
  | 'f' :: 't' :: rest =>
    if boundaryOk rest then some rest else none
  | _ => none

/-- Match `[.:]?\s*.*$` against `rest` (the input after the feat word).
Python `.` does not match `'\n'` and `$` matches only at the end of the
string or before a final newline, so after greedily consuming an optional
`.`/`:`, a maximal whitespace run, and a maximal newline-free run, the match
succeeds iff nothing or a single final `'\n'` remains; the unconsumed
leftover is returned.  (Backtracking the optional `[.:]?` can never turn a
failure into a success: not consuming the punctuation character only forces
the `\s*` part to be empty, which makes the `$` condition harder.)

`featPunct` is the greedy `[.:]?`: consume one leading `.` or `:`. -/
def featPunct (rest : List Char) : List Char :=
  match rest with
  | c :: cs => if c = '.' || c = ':' then cs else rest
  | [] => []

def featTail (rest : List Char) : Option (List Char) :=
  match ((featPunct rest).dropWhile isSpaceChar).dropWhile
      (fun c => !decide (c = '\n')) with
  | [] => some []
  | ['\n'] => some ['\n']
  | _ => none

/-- Scan of the feat-removal substitution.  `prev` records whether the
previous character was a word character (so `\b` holds iff `!prev`).
A successful match extends to `$`, is replaced by one space, and the scan of
the (at most one-character) leftover finds no further match. -/
def stripFeatGo (prev : Bool) : List Char → List Char
  | [] => []
  | c :: cs =>
    if prev then c :: stripFeatGo (isWordChar c) cs
    else
      match matchFeatWord (c :: cs) with
      | some rest =>
        match featTail rest with
        | some leftover => ' ' :: leftover
        | none => c :: stripFeatGo (isWordChar c) cs
      | none => c :: stripFeatGo (isWordChar c) cs

def stripFeat (l : List Char) : List Char := stripFeatGo false l

/-! ### Stage 4: `re.split(r'\s[-–—]\s', s)[0]` -/

/-- Keep only the prefix before the first occurrence of
whitespace–dash–whitespace. -/
def firstSegment : List Char → List Char
  | [] => []
  | c :: cs =>
    match cs with
    | d :: e :: _ =>
      if isSpaceChar c && isDashChar d && isSpaceChar e then []
      else c :: firstSegment cs
    | _ => c :: firstSegment cs

/-! ### Stage 5: `re.sub(r'[^\w\s]', ' ', s)` -/

def stripPunct (l : List Char) : List Char :=
  l.map (fun c => if !isWordChar c && !isSpaceChar c then ' ' else c)

/-! ### Stage 6: `re.sub(r'\s+', ' ', s).strip()` -/

/-- Replace every maximal whitespace run by a single `' '`.  `prev` records
whether we are inside a whitespace run whose replacement was already
emitted. -/
def collapseGo (prev : Bool) : List Char → List Char
  | [] => []
  | c :: cs =>
    if isSpaceChar c then
      if prev then collapseGo true cs
      else ' ' :: collapseGo true cs
    else c :: collapseGo false cs

def collapseWs (l : List Char) : List Char := collapseGo false l

/-- Remove trailing whitespace (right half of Python `str.strip()`). -/
def dropTrailing : List Char → List Char
  | [] => []
  | c :: cs =>
    match dropTrailing cs with
    | [] => if isSpaceChar c then [] else [c]
    | r => c :: r

/-- Python `str.strip()` on a character list. -/
def pyStrip (l : List Char) : List Char :=
  dropTrailing (l.dropWhile isSpaceChar)

/-- Python `str.strip()` on a `String`. -/
def pyStripS (s : String) : String := ⟨pyStrip s.data⟩

/-- Python `str.lower()` on a `String` (ASCII). -/
def pyLowerS (s : String) : String := ⟨pyLower s.data⟩

/-! ### `normalize_title` -/

/-- The whole normalization pipeline of `normalize_title` on the character
list of a non-empty title, in the exact order of the Python source. -/
def normalizeList (l : List Char) : List Char :=
  pyStrip (collapseWs (stripPunct (firstSegment (stripFeat
    (stripSpan '{' '}' (stripSpan '[' ']' (stripSpan '(' ')' (pyLower l))))))))

/-- `normalize_title` from `src/app.py`: lowercase, drop `(...)`/`[...]`/
`{...}` spans, drop a `feat`/`ft`/`featuring` marker and everything after it,
keep the first ` - `-separated segment, replace remaining punctuation by
spaces, collapse whitespace and strip. -/
def normalize_title (t : String) : String :=
  if t = "" then "" else ⟨normalizeList t.data⟩

/-- `has_latin_characters` from `src/app.py`: true iff the text contains at
least one ASCII letter (`re.search(r'[A-Za-z]', text)`), with the explicit
empty-text guard of the source. -/
def has_latin_characters (text : String) : Bool :=
  if text = "" then false
  else text.data.any (fun c =>
    (decide ('A' ≤ c) && decide (c ≤ 'Z')) ||
    (decide ('a' ≤ c) && decide (c ≤ 'z')))

/-! ### The similarity scorer: `rapidfuzz.fuzz.ratio` -/

/-- Indel (insert/delete-only Levenshtein) distance, the distance underlying
`rapidfuzz.fuzz.ratio`. -/
def indelDist : List Char → List Char → Nat
  | [], ys => ys.length
  | xs, [] => xs.length
  | x :: xs, y :: ys =>
    if x = y then indelDist xs ys
    else 1 + min (indelDist xs (y :: ys)) (indelDist (x :: xs) ys)
termination_by xs ys => xs.length + ys.length
decreasing_by all_goals simp [List.length] <;> omega

/-- `fuzz.ratio(a, b) = 100 * (|a| + |b| - dist) / (|a| + |b|)`, and `100`
when both strings are empty (as returned by rapidfuzz). -/
def fuzzRatio (a b : String) : ℚ :=
  let la := a.data.length
  let lb := b.data.length
  if la + lb = 0 then 100
  else (100 * ((la : ℚ) + lb - indelDist a.data b.data)) / (la + lb)

/-! ### Data model: tracks and session state -/

/-- A Spotify track record as used by the app (`t["id"]`, `t["name"]`,
`t["artists"]`, `t["uri"]`); a missing/null id is modelled as `""`
(both are falsy for the `t.get("id")` check). -/
structure Track where
  id : String
  name : String
  artists : List String
  uri : String
deriving DecidableEq, Repr

/-- The `session["current_track"]` dictionary stored by `seed_track`. -/
structure CurrentTrack where
  id : String
  name : String
  match_title : String
  artists : List String
  uri : String
deriving DecidableEq, Repr

/-- The per-session state used by the game: `session["played_tracks"]` and
`session["current_track"]`. -/
structure SessionState where
  played_tracks : List String
  current_track : Option CurrentTrack
deriving DecidableEq, Repr

/-! ### `_collect_candidate_tracks` -/

/-- A source item is an optional track (`cur["item"]` / `it.get("track")` /
a top-tracks item may be null). -/
def eligOfOpt : Option Track → List Track
  | some t => if t.id = "" then [] else [t]
  | none => []

/-- The records of one list source that pass the `if t and t.get("id")`
guard, in order. -/
def eligOfList (l : List (Option Track)) : List Track :=
  l.foldr (fun o acc => eligOfOpt o ++ acc) []

/-- A failed source call (`except Exception: pass`) contributes nothing. -/
def recoverOpt : Except Unit (Option Track) → Option Track
  | Except.ok v => v
  | Except.error _ => none

def recoverList : Except Unit (List (Option Track)) → List (Option Track)
  | Except.ok v => v
  | Except.error _ => []

/-- First-occurrence deduplication by id: the Python `candidates` dict is
populated with `candidates[id] = t` / `candidates.setdefault(id, t)`, so the
first record inserted for an id wins and `candidates.values()` lists the
retained records in first-occurrence order. -/
def dedupByIdGo (seen : List String) : List Track → List Track
  | [] => []
  | t :: ts =>
    if t.id ∈ seen then dedupByIdGo seen ts
    else t :: dedupByIdGo (t.id :: seen) ts

def dedupById (ts : List Track) : List Track := dedupByIdGo [] ts

/-- The eligible records of the three sources merged in the fixed source
order: currently playing, then recently played, then top tracks. -/
def mergedEligible (cur : Except Unit (Option Track))
    (recent top : Except Unit (List (Option Track))) : List Track :=
  eligOfOpt (recoverOpt cur) ++ eligOfList (recoverList recent) ++
    eligOfList (recoverList top)

/-- `_collect_candidate_tracks` from `src/app.py`: merge the three sources
(each independently fault-tolerant), dedup by id keeping the first
occurrence, and shuffle.  `random.shuffle` is modelled by an arbitrary
`shuffle` parameter (the theorems about contents assume it permutes). -/
def collect_candidate_tracks (shuffle : List Track → List Track)
    (cur : Except Unit (Option Track))
    (recent top : Except Unit (List (Option Track))) : List Track :=
  shuffle (dedupById (mergedEligible cur recent top))

/-! ### `seed_track` -/

/-- The three outcomes of `/api/seed-track` that the claims distinguish:
missing auth, exhaustion (`{"error": "no-more-tracks"}, 404`), and a
successful pick. -/
inductive SeedOutcome where
  | needsAuth : SeedOutcome
  | noMoreTracks : SeedOutcome
  | seeded (cur : CurrentTrack) : SeedOutcome
deriving DecidableEq, Repr

/-- The `session["current_track"]` record stored for a picked track. -/
def mkCurrentTrack (t : Track) : CurrentTrack :=
  { id := t.id, name := t.name, match_title := normalize_title t.name,
    artists := t.artists, uri := t.uri }

/-- The eligibility filter of `seed_track`:
`t.get("id") not in played and has_latin_characters(t.get("name", ""))`. -/
def seedFilter (played : List String) (cands : List Track) : List Track :=
  cands.filter (fun t => !decide (t.id ∈ played) && has_latin_characters t.name)

/-- `/api/seed-track` from `src/app.py`.  `authed` models the `get_spotify()`
guard, `cands` the output of `_collect_candidate_tracks`, and `k` the index
drawn by `random.choice` (taken modulo the number of eligible candidates).
The handler returns the outcome and the updated session. -/
def seed_track (authed : Bool) (st : SessionState) (cands : List Track)
    (k : Nat) : SeedOutcome × SessionState :=
  if !authed then (SeedOutcome.needsAuth, st)
  else
    let played := st.played_tracks
    match seedFilter played cands with
    | [] => (SeedOutcome.noMoreTracks, st)
    | c :: cs =>
      let track := (c :: cs).getD (k % (c :: cs).length) c
      let cur := mkCurrentTrack track
      (SeedOutcome.seeded cur,
        { played_tracks := played ++ [track.id], current_track := some cur })

/-- One session-worth of `/api/seed-track` calls: each call supplies its own
auth state, candidate pool and random index; the returned list collects the
ids of the successfully seeded tracks in order. -/
def runSeeds : SessionState → List (Bool × List Track × Nat) → List String
  | _, [] => []
  | st, (authed, cands, k) :: rest =>
    match seed_track authed st cands k with
    | (SeedOutcome.seeded cur, st') => cur.id :: runSeeds st' rest
    | (_, st') => runSeeds st' rest

/-! ### `check_guess` -/

/-- The two outcomes of `/api/check-guess`: the request-validation error
(`{"error": "missing-guess-or-correct-title"}, 400`) and a verdict
(`accepted`, the returned ratio, `correct_title_raw`, `correct_normalized`). -/
inductive CheckResult where
  | missingInput : CheckResult
  | verdict (accepted : Bool) (score : ℚ)
      (correct_title_raw : String) (correct_normalized : String) : CheckResult
deriving DecidableEq, Repr

/-- `correct_title_raw` of `check_guess`: the stored track name, else the
posted `correct_title`. -/
def answerTitle (current : Option CurrentTrack) (data_correct_title : String) :
    String :=
  match current with
  | some c => c.name
  | none => data_correct_title

/-- `correct_match` of `check_guess`: the stored `match_title` if truthy
(`or` re-normalizes the raw name when it is empty), else the normalization
of the posted `correct_title`.  There is no fallback to the raw lowercased
answer title when normalization is empty. -/
def answerMatch (current : Option CurrentTrack) (data_correct_title : String) :
    String :=
  match current with
  | some c => if c.match_title ≠ "" then c.match_title
              else normalize_title c.name
  | none => normalize_title data_correct_title

/-- `guess_norm` of `check_guess`: normalize the stripped guess, falling
back to its raw lowercase if normalization is empty. -/
def guessNorm (guess_raw : String) : String :=
  if normalize_title guess_raw ≠ "" then normalize_title guess_raw
  else pyLowerS guess_raw

/-- The length-sensitive acceptance threshold:
`target = 93 if len(correct_match) > 4 else 88`. -/
def targetFor (correct_match : String) : ℚ :=
  if 4 < correct_match.length then 93 else 88

/-- `/api/check-guess` from `src/app.py`.  `guess` is the posted guess,
`current` the session `current_track` (if any) and `data_correct_title` the
posted fallback `correct_title` used when no track is stored. -/
def check_guess (guess : String) (current : Option CurrentTrack)
    (data_correct_title : String) : CheckResult :=
  let guess_raw := pyStripS guess
  if guess_raw = "" ∨ answerTitle current data_correct_title = "" then
    CheckResult.missingInput
  else
    let correct_match := answerMatch current data_correct_title
    let score := fuzzRatio (guessNorm guess_raw) correct_match
    CheckResult.verdict (decide (targetFor correct_match ≤ score)) score
      (answerTitle current data_correct_title) correct_match

/-! ### Proof infrastructure (not part of the embedding)

`wordRuns` lists the maximal runs of `\w`-characters of a string; the
regexes of `normalize_title` are reasoned about through it.  `spacedOk`
says that every whitespace character is a plain `' '` not followed by
another space; `FirstOcc` states that a record is the first of its id in a
merge list. -/

def wordRunsGo (cur : List Char) : List Char → List (List Char)
  | [] => if cur.isEmpty then [] else [cur.reverse]
  | c :: cs =>
    if isWordChar c then wordRunsGo (c :: cur) cs
    else if cur.isEmpty then wordRunsGo [] cs
    else cur.reverse :: wordRunsGo [] cs

def wordRuns (l : List Char) : List (List Char) := wordRunsGo [] l

/-- The three words removed (with their suffix) by the feat regex. -/
def featWords : List (List Char) :=
  [['f', 'e', 'a', 't'], ['f', 't'],
   ['f', 'e', 'a', 't', 'u', 'r', 'i', 'n', 'g']]

def headNotSpace : List Char → Bool
  | [] => true
  | c :: _ => !isSpaceChar c

/-- Every whitespace character is `' '` and no two whitespace characters
are adjacent. -/
def spacedOk : List Char → Bool
  | [] => true
  | c :: cs =>
    (if isSpaceChar c then decide (c = ' ') && headNotSpace cs else true) &&
      spacedOk cs

/-- `t` occurs in `l` and no earlier record of `l` has its id. -/
def FirstOcc (l : List Track) (t : Track) : Prop :=
  ∃ pre post, l = pre ++ t :: post ∧ ∀ u ∈ pre, u.id ≠ t.id

/-! ## Theorems -/

theorem indelDist_nil_left (ys : List Char) : indelDist [] ys = ys.length := by
  cases ys <;> simp [indelDist]

theorem indelDist_nil_right (xs : List Char) : indelDist xs [] = xs.length := by
  cases xs <;> simp [indelDist]

theorem indelDist_cons_cons (x y : Char) (xs ys : List Char) :
    indelDist (x :: xs) (y :: ys) =
      if x = y then indelDist xs ys
      else 1 + min (indelDist xs (y :: ys)) (indelDist (x :: xs) ys) := by
  simp [indelDist]

theorem indelDist_symm (xs ys : List Char) :
    indelDist xs ys = indelDist ys xs := by
  have H : ∀ (n : Nat) (xs ys : List Char), xs.length + ys.length ≤ n →
      indelDist xs ys = indelDist ys xs := by
    intro n
    induction n with
    | zero =>
      intro xs ys h
      cases xs with
      | nil =>
        cases ys with
        | nil => rfl
        | cons y ys => simp at h
      | cons x xs => simp at h
    | succ n ih =>
      intro xs ys h
      cases xs with
      | nil => rw [indelDist_nil_left, indelDist_nil_right]
      | cons x xs =>
        cases ys with
        | nil => rw [indelDist_nil_left, indelDist_nil_right]
        | cons y ys =>
          rw [indelDist_cons_cons, indelDist_cons_cons]
          simp only [List.length_cons] at h
          by_cases hxy : x = y
          · rw [if_pos hxy, if_pos hxy.symm, ih xs ys (by omega)]
          · rw [if_neg hxy, if_neg (fun hyx => hxy hyx.symm),
              ih xs (y :: ys) (by simp; omega), ih (x :: xs) ys (by simp; omega),
              Nat.min_comm]
  exact H (xs.length + ys.length) xs ys le_rfl

theorem indelDist_self (xs : List Char) : indelDist xs xs = 0 := by
  induction xs with
  | nil => rw [indelDist_nil_left]; rfl
  | cons x xs ih => rw [indelDist_cons_cons, if_pos rfl, ih]

theorem fuzzRatio_comm (a b : String) : fuzzRatio a b = fuzzRatio b a := by
  simp only [fuzzRatio]
  by_cases h : a.data.length + b.data.length = 0
  · rw [if_pos h, if_pos (by omega)]
  · rw [if_neg h, if_neg (by omega), indelDist_symm]
    ring

theorem fuzzRatio_self (a : String) : fuzzRatio a a = 100 := by
  simp only [fuzzRatio]
  by_cases h : a.data.length + a.data.length = 0
  · rw [if_pos h]
  · rw [if_neg h, indelDist_self]
    have hq : ((a.data.length : ℚ) + (a.data.length : ℚ)) ≠ 0 := by
      rw [← Nat.cast_add]
      exact_mod_cast h
    rw [Nat.cast_zero, sub_zero, mul_div_assoc, div_self hq, mul_one]

/-- C9: the similarity scorer used by the judge (the Indel ratio of
`rapidfuzz.fuzz.ratio`, applied by `check_guess` to the normalized guess and
normalized answer) is symmetric, and returns 100 on identical strings. -/
theorem c9_score_symm_and_id :
    (∀ a b : String, fuzzRatio a b = fuzzRatio b a) ∧
    (∀ a : String, fuzzRatio a a = 100) :=
  ⟨fuzzRatio_comm, fuzzRatio_self⟩

/-- Evaluation shape of `check_guess` when validation passes. -/
theorem check_guess_eq_verdict (g : String) (cur : Option CurrentTrack)
    (dct : String) (h : ¬(pyStripS g = "" ∨ answerTitle cur dct = "")) :
    check_guess g cur dct =
      CheckResult.verdict
        (decide (targetFor (answerMatch cur dct) ≤
          fuzzRatio (guessNorm (pyStripS g)) (answerMatch cur dct)))
        (fuzzRatio (guessNorm (pyStripS g)) (answerMatch cur dct))
        (answerTitle cur dct) (answerMatch cur dct) := by
  simp only [check_guess]
  rw [if_neg h]

/-- C1: for every `check_guess` call that passes input validation (i.e.
returns a verdict), the guess is accepted iff the similarity score is at
least 93 when the normalized answer is longer than 4 characters and at
least 88 otherwise; in particular at the 88/87 and 93/92 boundaries. -/
theorem c1_threshold :
    ∀ (guess : String) (current : Option CurrentTrack) (dct : String)
      (acc : Bool) (sc : ℚ) (raw nrm : String),
      check_guess guess current dct = CheckResult.verdict acc sc raw nrm →
      ((acc = true ↔ (if 4 < nrm.length then (93 : ℚ) else 88) ≤ sc) ∧
       (nrm.length ≤ 4 → ((sc = 88 → acc = true) ∧ (sc = 87 → acc = false))) ∧
       (4 < nrm.length → ((sc = 93 → acc = true) ∧ (sc = 92 → acc = false)))) := by
  intro g cur dct acc sc raw nrm h
  simp only [check_guess] at h
  split at h
  · exact absurd h (by simp)
  · injection h with h1 h2 h3 h4
    subst h1 h2 h3 h4
    refine ⟨by simp [targetFor], ?_, ?_⟩
    · intro hlen
      have ht : targetFor (answerMatch cur dct) = 88 := by
        unfold targetFor
        rw [if_neg (by omega)]
      constructor
      · intro hsc
        rw [ht, hsc]
        decide
      · intro hsc
        rw [ht, hsc]
        decide
    · intro hlen
      have ht : targetFor (answerMatch cur dct) = 93 := by
        unfold targetFor
        rw [if_pos hlen]
      constructor
      · intro hsc
        rw [ht, hsc]
        decide
      · intro hsc
        rw [ht, hsc]
        decide

/-- Witness for C1 at the concrete call
`check_guess "stay" none "stay" = verdict true 100 "stay" "stay"`. -/
theorem c1_witness :
    (true = true) ↔ (if 4 < ("stay" : String).length then (93 : ℚ) else 88) ≤ 100 :=
  (c1_threshold "stay" none "stay" true 100 "stay" "stay" (by
    rw [check_guess_eq_verdict "stay" none "stay" (by decide)]
    have hs : fuzzRatio (guessNorm (pyStripS "stay")) (answerMatch none "stay") =
        100 := fuzzRatio_self "stay"
    have hm : answerMatch none "stay" = "stay" := rfl
    have ht : answerTitle none "stay" = "stay" := rfl
    rw [hs, hm, ht]
    norm_num [targetFor]
    rw [show ("stay" : String).length = 4 from rfl]
    norm_num)).1

/-- C3: `normalize_title` applies exactly, in order: lowercasing, removal of
`(...)`/`[...]`/`{...}` spans, removal of a `feat`/`ft`/`featuring` marker
and everything after it, truncation at the first space–dash–space,
replacement of remaining punctuation by spaces, and whitespace
collapsing/trimming; with the three concrete examples of the spec. -/
theorem c3_normalize_pipeline :
    (∀ t : String, normalize_title t =
      ⟨pyStrip (collapseWs (stripPunct (firstSegment (stripFeat
        (stripSpan '{' '}' (stripSpan '[' ']' (stripSpan '(' ')'
          (pyLower t.data))))))))⟩) ∧
    normalize_title "Blinding Lights (feat. Someone) - Remastered 2020" =
      "blinding lights" ∧
    normalize_title "  Hello---World!!  " = "hello world" ∧
    normalize_title "" = "" := by
  refine ⟨?_, by decide, by decide, rfl⟩
  intro t
  unfold normalize_title normalizeList
  split
  · next h => subst h; rfl
  · rfl

/-- C7: each of the three catalogue queries is independently fault-tolerant
inside `_collect_candidate_tracks`: a failing source contributes zero
tracks and the build returns the deduplicated merge of the remaining
sources (no error outcome exists in its result type). -/
theorem c7_source_fault_tolerance :
    ∀ (sh : List Track → List Track) (cur : Except Unit (Option Track))
      (recent top : Except Unit (List (Option Track))) (u : Unit),
      collect_candidate_tracks sh (Except.error u) recent top =
        collect_candidate_tracks sh (Except.ok none) recent top ∧
      collect_candidate_tracks sh cur (Except.error u) top =
        collect_candidate_tracks sh cur (Except.ok []) top ∧
      collect_candidate_tracks sh cur recent (Except.error u) =
        collect_candidate_tracks sh cur recent (Except.ok []) ∧
      collect_candidate_tracks sh (Except.error u) (Except.error u)
          (Except.error u) = sh [] := by
  intro sh cur recent top u
  exact ⟨rfl, rfl, rfl, rfl⟩

/-- C2 (divergence witness): the guess-side fallback exists but there is no
raw-lowercase fallback for the answer; judging the guess `"!!!"` against a
seeded track whose raw title is `"!!!"` compares the raw lowercased guess
`"!!!"` against the empty normalized answer and rejects with score 0,
instead of accepting via raw lowercased comparison. -/
theorem c2_no_answer_fallback :
    normalize_title "!!!" = "" ∧
    pyLowerS (pyStripS "!!!") = "!!!" ∧
    check_guess "!!!" (some (mkCurrentTrack ⟨"t1", "!!!", [], "uri"⟩)) "" =
      CheckResult.verdict false 0 "!!!" "" := by
  refine ⟨rfl, rfl, ?_⟩
  have h : ¬(pyStripS "!!!" = "" ∨
      answerTitle (some (mkCurrentTrack ⟨"t1", "!!!", [], "uri"⟩)) "" = "") := by
    decide
  rw [check_guess_eq_verdict _ _ _ h]
  have hm : answerMatch (some (mkCurrentTrack ⟨"t1", "!!!", [], "uri"⟩)) "" = "" :=
    rfl
  have hg : guessNorm (pyStripS "!!!") = "!!!" := rfl
  have ht : answerTitle (some (mkCurrentTrack ⟨"t1", "!!!", [], "uri"⟩)) "" =
      "!!!" := rfl
  rw [hm, hg, ht]
  have hs : fuzzRatio "!!!" "" = 0 := by
    have hd : indelDist ("!!!" : String).data ("" : String).data = 3 := by
      rw [show ("" : String).data = [] from rfl, indelDist_nil_right]
      rfl
    simp only [fuzzRatio]
    rw [if_neg (by decide), hd]
    norm_num
  rw [hs]
  norm_num [targetFor]

/-- C6 (amended): `check_guess` returns the request-validation error iff the
guess is empty after trimming or the answer title is the empty string (the
answer title is *not* trimmed); otherwise it returns a verdict. -/
theorem c6_validation_iff :
    ∀ (guess : String) (current : Option CurrentTrack) (dct : String),
      check_guess guess current dct = CheckResult.missingInput ↔
      (pyStripS guess = "" ∨ answerTitle current dct = "") := by
  intro g cur dct
  simp only [check_guess]
  split
  · next h => exact iff_of_true rfl h
  · next h => exact iff_of_false (by simp) h

/-- C6 counterexample: a whitespace-only answer title trims to empty but is
not the empty string, so the claimed "empty after trimming" validation does
not hold: `check_guess "x" none " "` passes validation and returns a
verdict instead of the error. -/
theorem c6_cex :
    pyStripS " " = "" ∧ pyStripS "x" = "x" ∧
    check_guess "x" none " " ≠ CheckResult.missingInput := by
  refine ⟨rfl, rfl, ?_⟩
  rw [check_guess_eq_verdict "x" none " " (by decide)]
  simp

theorem getD_mem_or_eq {α : Type} (l : List α) (n : Nat) (d : α) :
    l.getD n d ∈ l ∨ l.getD n d = d := by
  induction l generalizing n with
  | nil => right; simp [List.getD]
  | cons c cs ih =>
    cases n with
    | zero => left; simp [List.getD]
    | succ n =>
      rcases ih n with h | h
      · left
        simp only [List.getD] at h ⊢
        exact List.mem_cons_of_mem c h
      · right
        simpa [List.getD] using h

theorem seed_track_seeded_spec (authed : Bool) (st : SessionState)
    (cands : List Track) (k : Nat) (cur : CurrentTrack) (st' : SessionState)
    (h : seed_track authed st cands k = (SeedOutcome.seeded cur, st')) :
    (∃ t, t ∈ seedFilter st.played_tracks cands ∧ cur = mkCurrentTrack t) ∧
    cur.id ∉ st.played_tracks ∧ has_latin_characters cur.name = true ∧
    st' = { played_tracks := st.played_tracks ++ [cur.id],
            current_track := some cur } := by
  cases authed with
  | false => simp [seed_track] at h
  | true =>
    unfold seed_track at h
    simp only [Bool.not_true, Bool.false_eq_true, if_false] at h
    rcases hf : seedFilter st.played_tracks cands with _ | ⟨c, cs⟩
    · rw [hf] at h
      simp at h
    · rw [hf] at h
      injection h with h1 h2
      injection h1 with h1
      have hmem : (c :: cs).getD (k % (c :: cs).length) c ∈ c :: cs := by
        rcases getD_mem_or_eq (c :: cs) (k % (c :: cs).length) c with hm | hm
        · exact hm
        · rw [hm]; exact List.mem_cons_self c cs
      have hmemf : (c :: cs).getD (k % (c :: cs).length) c ∈
          seedFilter st.played_tracks cands := by
        rw [hf]; exact hmem
      have hpred := List.mem_filter.mp hmemf
      rw [Bool.and_eq_true, Bool.not_eq_true', decide_eq_false_iff_not] at hpred
      refine ⟨⟨_, hmem, h1.symm⟩, ?_, ?_, ?_⟩
      · rw [← h1]
        exact hpred.2.1
      · rw [← h1]
        exact hpred.2.2
      · rw [← h2, ← h1]
        rfl

theorem seed_track_cases (authed : Bool) (st : SessionState)
    (cands : List Track) (k : Nat) :
    (∃ cur, seed_track authed st cands k =
      (SeedOutcome.seeded cur,
        { played_tracks := st.played_tracks ++ [cur.id],
          current_track := some cur })) ∨
    (seed_track authed st cands k).2 = st := by
  cases authed with
  | false => right; rfl
  | true =>
    unfold seed_track
    simp only [Bool.not_true, Bool.false_eq_true, if_false]
    rcases hf : seedFilter st.played_tracks cands with _ | ⟨c, cs⟩
    · right; rfl
    · left
      exact ⟨mkCurrentTrack ((c :: cs).getD (k % (c :: cs).length) c), rfl⟩

theorem runSeeds_fresh (calls : List (Bool × List Track × Nat)) :
    ∀ st : SessionState,
      (runSeeds st calls).Nodup ∧
      ∀ i ∈ runSeeds st calls, i ∉ st.played_tracks := by
  induction calls with
  | nil => intro st; exact ⟨List.nodup_nil, by simp [runSeeds]⟩
  | cons call rest ih =>
    intro st
    obtain ⟨authed, cands, k⟩ := call
    rcases hs : seed_track authed st cands k with ⟨out, st'⟩
    cases out with
    | seeded cur =>
      have hspec := seed_track_seeded_spec authed st cands k cur st' hs
      obtain ⟨-, hnotin, -, hst'⟩ := hspec
      have hih := ih st'
      have hrun : runSeeds st ((authed, cands, k) :: rest) =
          cur.id :: runSeeds st' rest := by
        simp only [runSeeds]
        rw [hs]
      rw [hrun]
      constructor
      · refine List.nodup_cons.mpr ⟨?_, hih.1⟩
        intro hmem
        have := hih.2 cur.id hmem
        rw [hst'] at this
        simp at this
      · intro i hi
        rcases List.mem_cons.mp hi with rfl | hi'
        · exact hnotin
        · have hnot := hih.2 i hi'
          rw [hst'] at hnot
          simp only [List.mem_append, not_or] at hnot
          exact hnot.1
    | noMoreTracks =>
      have hst' : st' = st := by
        rcases seed_track_cases authed st cands k with ⟨cur, hc⟩ | hc
        · rw [hs] at hc; simp at hc
        · rw [hs] at hc; exact hc
      have hrun : runSeeds st ((authed, cands, k) :: rest) =
          runSeeds st' rest := by
        simp only [runSeeds]
        rw [hs]
      rw [hrun, hst']
      exact ih st
    | needsAuth =>
      have hst' : st' = st := by
        rcases seed_track_cases authed st cands k with ⟨cur, hc⟩ | hc
        · rw [hs] at hc; simp at hc
        · rw [hs] at hc; exact hc
      have hrun : runSeeds st ((authed, cands, k) :: rest) =
          runSeeds st' rest := by
        simp only [runSeeds]
        rw [hs]
      rw [hrun, hst']
      exact ih st

/-- C4: within one session no track id is seeded twice: a successful pick
chooses a candidate whose id is not in the played list and whose title has a
Latin letter, and appends the id; when no candidate passes the filter the
pick returns the `no-more-tracks` exhaustion outcome; across any sequence of
calls the returned ids are distinct. -/
theorem c4_no_repeat :
    (∀ (authed : Bool) (st : SessionState) (cands : List Track) (k : Nat)
       (cur : CurrentTrack) (st' : SessionState),
       seed_track authed st cands k = (SeedOutcome.seeded cur, st') →
       cur.id ∉ st.played_tracks ∧ has_latin_characters cur.name = true ∧
       (∃ t, t ∈ seedFilter st.played_tracks cands ∧ cur = mkCurrentTrack t) ∧
       st'.played_tracks = st.played_tracks ++ [cur.id]) ∧
    (∀ (st : SessionState) (cands : List Track) (k : Nat),
       seedFilter st.played_tracks cands = [] →
       seed_track true st cands k = (SeedOutcome.noMoreTracks, st)) ∧
    (∀ (st : SessionState) (calls : List (Bool × List Track × Nat)),
       (runSeeds st calls).Nodup) := by
  refine ⟨?_, ?_, ?_⟩
  · intro authed st cands k cur st' h
    obtain ⟨hex, hnotin, hlat, hst'⟩ := seed_track_seeded_spec authed st cands k cur st' h
    exact ⟨hnotin, hlat, hex, by rw [hst']⟩
  · intro st cands k hf
    unfold seed_track
    simp only [Bool.not_true, Bool.false_eq_true, if_false]
    rw [hf]
  · intro st calls
    exact (runSeeds_fresh calls st).1

/-- Witness for C4: a session that has played id "1" is exhausted on a pool
containing only that track, and a two-call run seeds each id at most once. -/
theorem c4_witness :
    seed_track true ⟨["1"], none⟩ [⟨"1", "Song One", [], ""⟩] 0 =
      (SeedOutcome.noMoreTracks, ⟨["1"], none⟩) ∧
    (runSeeds ⟨[], none⟩
      [(true, [⟨"1", "Song One", [], ""⟩], 0),
       (true, [⟨"1", "Song One", [], ""⟩], 7)]).Nodup :=
  ⟨c4_no_repeat.2.1 ⟨["1"], none⟩ [⟨"1", "Song One", [], ""⟩] 0 (by decide),
   c4_no_repeat.2.2 ⟨[], none⟩ _⟩

/-- C10: a pick that finds no eligible unused candidate (and likewise a
pick rejected for missing auth) returns with the session unchanged; the
session is mutated — answer set, id appended — only on a successful pick. -/
theorem c10_state_on_exhaustion :
    ∀ (authed : Bool) (st : SessionState) (cands : List Track) (k : Nat),
      ((seed_track authed st cands k).1 = SeedOutcome.noMoreTracks →
        (seed_track authed st cands k).2 = st) ∧
      ((seed_track authed st cands k).1 = SeedOutcome.needsAuth →
        (seed_track authed st cands k).2 = st) ∧
      (∀ cur, (seed_track authed st cands k).1 = SeedOutcome.seeded cur →
        (seed_track authed st cands k).2 =
          { played_tracks := st.played_tracks ++ [cur.id],
            current_track := some cur }) := by
  intro authed st cands k
  rcases seed_track_cases authed st cands k with ⟨cur, hc⟩ | hc
  · rw [hc]
    refine ⟨?_, ?_, ?_⟩
    · intro h; simp at h
    · intro h; simp at h
    · intro cur' h
      injection h with h1
      rw [← h1]
  · refine ⟨fun _ => hc, fun _ => hc, ?_⟩
    intro cur h
    rcases hs : seed_track authed st cands k with ⟨out, st2⟩
    rw [hs] at h hc
    dsimp at h hc
    subst h
    obtain ⟨-, -, -, hst'⟩ := seed_track_seeded_spec authed st cands k cur st2 hs
    exact hst'

/-- Witness for C10: exhaustion on an already-played pool leaves the
session unchanged. -/
theorem c10_witness :
    (seed_track true ⟨["1"], none⟩ [⟨"1", "Song One", [], ""⟩] 3).2 =
      ⟨["1"], none⟩ :=
  (c10_state_on_exhaustion true ⟨["1"], none⟩ [⟨"1", "Song One", [], ""⟩] 3).1
    (by decide)

theorem dedupByIdGo_mem (ts : List Track) :
    ∀ (seen : List String) (x : Track),
      x ∈ dedupByIdGo seen ts ↔
        (x.id ∉ seen ∧
          ∃ pre post, ts = pre ++ x :: post ∧ ∀ u ∈ pre, u.id ≠ x.id) := by
  induction ts with
  | nil =>
    intro seen x
    simp [dedupByIdGo]
  | cons t ts ih =>
    intro seen x
    by_cases hid : t.id ∈ seen
    · rw [show dedupByIdGo seen (t :: ts) = dedupByIdGo seen ts by
        simp [dedupByIdGo, hid]]
      rw [ih seen x]
      constructor
      · rintro ⟨hx, pre, post, hts, hpre⟩
        refine ⟨hx, t :: pre, post, by rw [hts]; rfl, ?_⟩
        intro u hu
        rcases List.mem_cons.mp hu with rfl | hu'
        · intro he
          exact hx (he ▸ hid)
        · exact hpre u hu'
      · rintro ⟨hx, pre, post, hts, hpre⟩
        cases pre with
        | nil =>
          injection hts with h1 h2
          exact absurd (h1 ▸ hid) hx
        | cons p pre' =>
          injection hts with h1 h2
          subst h1
          exact ⟨hx, pre', post, h2, fun u hu => hpre u (List.mem_cons_of_mem t hu)⟩
    · rw [show dedupByIdGo seen (t :: ts) =
          t :: dedupByIdGo (t.id :: seen) ts by simp [dedupByIdGo, hid]]
      rw [List.mem_cons, ih (t.id :: seen) x]
      constructor
      · rintro (rfl | ⟨hx, pre, post, hts, hpre⟩)
        · exact ⟨hid, [], ts, rfl, by simp⟩
        · have hx2 : x.id ∉ seen := fun hs => hx (List.mem_cons_of_mem _ hs)
          have hxt : x.id ≠ t.id := fun he => hx (by rw [he]; exact List.mem_cons_self _ _)
          refine ⟨hx2, t :: pre, post, by rw [hts]; rfl, ?_⟩
          intro u hu
          rcases List.mem_cons.mp hu with rfl | hu'
          · exact fun he => hxt he.symm
          · exact hpre u hu'
      · rintro ⟨hx, pre, post, hts, hpre⟩
        cases pre with
        | nil =>
          injection hts with h1 h2
          left
          exact h1.symm
        | cons p pre' =>
          injection hts with h1 h2
          subst h1
          right
          have hxt : x.id ≠ t.id :=
            fun he => (hpre t (List.mem_cons_self _ _)) he.symm
          refine ⟨?_, pre', post, h2, fun u hu => hpre u (List.mem_cons_of_mem _ hu)⟩
          intro hmem
          rcases List.mem_cons.mp hmem with he | hs
          · exact hxt he
          · exact hx hs

theorem dedupByIdGo_ids (ts : List Track) :
    ∀ seen : List String,
      ((dedupByIdGo seen ts).map Track.id).Nodup ∧
      ∀ i ∈ (dedupByIdGo seen ts).map Track.id, i ∉ seen := by
  induction ts with
  | nil =>
    intro seen
    simp [dedupByIdGo]
  | cons t ts ih =>
    intro seen
    by_cases hid : t.id ∈ seen
    · rw [show dedupByIdGo seen (t :: ts) = dedupByIdGo seen ts by
        simp [dedupByIdGo, hid]]
      exact ih seen
    · rw [show dedupByIdGo seen (t :: ts) =
          t :: dedupByIdGo (t.id :: seen) ts by simp [dedupByIdGo, hid]]
      simp only [List.map_cons, List.nodup_cons, List.mem_cons]
      refine ⟨⟨?_, (ih (t.id :: seen)).1⟩, ?_⟩
      · intro hmem
        have := (ih (t.id :: seen)).2 t.id hmem
        exact this (List.mem_cons_self _ _)
      · rintro i (rfl | hi)
        · exact hid
        · have := (ih (t.id :: seen)).2 i hi
          exact fun hs => this (List.mem_cons_of_mem _ hs)

theorem dedupByIdGo_id_mem (ts : List Track) :
    ∀ (seen : List String) (i : String),
      i ∈ (dedupByIdGo seen ts).map Track.id ↔
        (i ∉ seen ∧ i ∈ ts.map Track.id) := by
  induction ts with
  | nil =>
    intro seen i
    simp [dedupByIdGo]
  | cons t ts ih =>
    intro seen i
    by_cases hid : t.id ∈ seen
    · rw [show dedupByIdGo seen (t :: ts) = dedupByIdGo seen ts by
        simp [dedupByIdGo, hid]]
      rw [ih seen i]
      simp only [List.map_cons, List.mem_cons]
      constructor
      · rintro ⟨h1, h2⟩
        exact ⟨h1, Or.inr h2⟩
      · rintro ⟨h1, rfl | h2⟩
        · exact absurd hid h1
        · exact ⟨h1, h2⟩
    · rw [show dedupByIdGo seen (t :: ts) =
          t :: dedupByIdGo (t.id :: seen) ts by simp [dedupByIdGo, hid]]
      simp only [List.map_cons, List.mem_cons]
      rw [ih (t.id :: seen) i]
      constructor
      · rintro (rfl | ⟨h1, h2⟩)
        · exact ⟨hid, Or.inl rfl⟩
        · refine ⟨fun hs => h1 (List.mem_cons_of_mem _ hs), Or.inr h2⟩
      · rintro ⟨h1, rfl | h2⟩
        · exact Or.inl rfl
        · by_cases hit : i = t.id
          · exact Or.inl hit
          · refine Or.inr ⟨?_, h2⟩
            intro hmem
            rcases List.mem_cons.mp hmem with he | hs
            · exact hit he
            · exact h1 hs

/-- C5: a pool build returns one track per distinct id of the merged source
records (currently-playing, then recently-played, then top tracks, each
after the id guard), and for each id the retained record is the first one
encountered in that merge order. -/
theorem c5_dedup_pool :
    ∀ (sh : List Track → List Track) (cur : Except Unit (Option Track))
      (recent top : Except Unit (List (Option Track))),
      (∀ l : List Track, (sh l).Perm l) →
      (((collect_candidate_tracks sh cur recent top).map Track.id).Nodup ∧
       (collect_candidate_tracks sh cur recent top).length =
         ((mergedEligible cur recent top).map Track.id).toFinset.card ∧
       (∀ x : Track, x ∈ collect_candidate_tracks sh cur recent top ↔
          FirstOcc (mergedEligible cur recent top) x)) := by
  intro sh cur recent top hsh
  have hperm : (collect_candidate_tracks sh cur recent top).Perm
      (dedupById (mergedEligible cur recent top)) := hsh _
  have hnd : ((dedupById (mergedEligible cur recent top)).map Track.id).Nodup :=
    (dedupByIdGo_ids (mergedEligible cur recent top) []).1
  refine ⟨?_, ?_, ?_⟩
  · exact ((hperm.map Track.id).nodup_iff).mpr hnd
  · rw [hperm.length_eq]
    have hlen : (dedupById (mergedEligible cur recent top)).length =
        ((dedupById (mergedEligible cur recent top)).map Track.id).length :=
      (List.length_map _ _).symm
    rw [hlen, ← List.toFinset_card_of_nodup hnd]
    congr 1
    apply Finset.ext
    intro i
    rw [List.mem_toFinset, List.mem_toFinset]
    simp only [dedupById]
    rw [dedupByIdGo_id_mem (mergedEligible cur recent top) [] i]
    simp
  · intro x
    rw [hperm.mem_iff]
    simp only [dedupById]
    rw [dedupByIdGo_mem (mergedEligible cur recent top) [] x]
    unfold FirstOcc
    simp

/-- Witness for C5: a concrete build whose three sources overlap on id "1";
the identity permutation serves as the shuffle. -/
theorem c5_witness :
    (((collect_candidate_tracks (fun l => l) (Except.ok (some ⟨"1", "A", [], ""⟩))
        (Except.ok [some ⟨"2", "B", [], ""⟩, some ⟨"1", "A again", [], ""⟩])
        (Except.error ())).map Track.id).Nodup ∧
     (collect_candidate_tracks (fun l => l) (Except.ok (some ⟨"1", "A", [], ""⟩))
        (Except.ok [some ⟨"2", "B", [], ""⟩, some ⟨"1", "A again", [], ""⟩])
        (Except.error ())).length =
       ((mergedEligible (Except.ok (some ⟨"1", "A", [], ""⟩))
          (Except.ok [some ⟨"2", "B", [], ""⟩, some ⟨"1", "A again", [], ""⟩])
          (Except.error ())).map Track.id).toFinset.card ∧
     (∀ x : Track, x ∈ collect_candidate_tracks (fun l => l)
          (Except.ok (some ⟨"1", "A", [], ""⟩))
          (Except.ok [some ⟨"2", "B", [], ""⟩, some ⟨"1", "A again", [], ""⟩])
          (Except.error ()) ↔
        FirstOcc (mergedEligible (Except.ok (some ⟨"1", "A", [], ""⟩))
          (Except.ok [some ⟨"2", "B", [], ""⟩, some ⟨"1", "A again", [], ""⟩])
          (Except.error ())) x)) :=
  c5_dedup_pool (fun l => l) _ _ _ (fun l => List.Perm.refl l)

/-! ### Toward C8: character-class facts -/

theorem isSpaceChar_cases (c : Char) (h : isSpaceChar c = true) :
    c = ' ' ∨ c = '\t' ∨ c = '\n' ∨ c = '\r' ∨ c = '\x0b' ∨ c = '\x0c' := by
  unfold isSpaceChar at h
  simp only [Bool.or_eq_true, decide_eq_true_eq] at h
  tauto

theorem not_word_of_space (c : Char) (h : isSpaceChar c = true) :
    isWordChar c = false := by
  rcases isSpaceChar_cases c h with rfl | rfl | rfl | rfl | rfl | rfl <;> decide

theorem pyLowerChar_eq_or (c : Char) :
    pyLowerChar c = c ∨ pyLowerChar c ∈
      ['a', 'b', 'c', 'd', 'e', 'f', 'g', 'h', 'i', 'j', 'k', 'l', 'm',
       'n', 'o', 'p', 'q', 'r', 's', 't', 'u', 'v', 'w', 'x', 'y', 'z'] := by
  unfold pyLowerChar
  split <;> simp

theorem pyLowerChar_fix_lower (d : Char)
    (h : d ∈ ['a', 'b', 'c', 'd', 'e', 'f', 'g', 'h', 'i', 'j', 'k', 'l', 'm',
       'n', 'o', 'p', 'q', 'r', 's', 't', 'u', 'v', 'w', 'x', 'y', 'z']) :
    pyLowerChar d = d := by
  fin_cases h <;> rfl

theorem pyLowerChar_idem (c : Char) :
    pyLowerChar (pyLowerChar c) = pyLowerChar c := by
  rcases pyLowerChar_eq_or c with h | h
  · rw [h, h]
  · exact pyLowerChar_fix_lower _ h

theorem pyLowerChar_ne_newline (c : Char) (h : c ≠ '\n') :
    pyLowerChar c ≠ '\n' := by
  rcases pyLowerChar_eq_or c with he | he
  · rw [he]; exact h
  · intro hn
    rw [hn] at he
    simp at he

/-! ### Toward C8: membership propagation through the stages -/

theorem mem_of_mem_dropWhile {p : Char → Bool} {l : List Char} {a : Char}
    (h : a ∈ l.dropWhile p) : a ∈ l :=
  (List.dropWhile_sublist p).subset h

theorem mem_stripSpanGo (o c : Char) :
    ∀ (l : List Char) (buf : Option (List Char)) (a : Char),
      a ∈ stripSpanGo o c buf l →
      a ∈ l ∨ (∃ b, buf = some b ∧ a ∈ b) ∨ a = ' ' := by
  intro l
  induction l with
  | nil =>
    intro buf a ha
    cases buf with
    | none => simp [stripSpanGo] at ha
    | some b =>
      simp only [stripSpanGo, List.mem_reverse] at ha
      exact Or.inr (Or.inl ⟨b, rfl, ha⟩)
  | cons x xs ih =>
    intro buf a ha
    cases buf with
    | none =>
      simp only [stripSpanGo] at ha
      by_cases hx : x = o
      · rw [if_pos hx] at ha
        rcases ih (some [x]) a ha with h1 | ⟨b, hb, h2⟩ | h3
        · exact Or.inl (List.mem_cons_of_mem x h1)
        · injection hb with hb
          rw [← hb] at h2
          simp at h2
          exact Or.inl (by rw [h2]; exact List.mem_cons_self x xs)
        · exact Or.inr (Or.inr h3)
      · rw [if_neg hx] at ha
        rcases List.mem_cons.mp ha with rfl | h1
        · exact Or.inl (List.mem_cons_self a xs)
        · rcases ih none a h1 with h2 | ⟨b, hb, -⟩ | h3
          · exact Or.inl (List.mem_cons_of_mem x h2)
          · exact absurd hb (by simp)
          · exact Or.inr (Or.inr h3)
    | some b =>
      simp only [stripSpanGo] at ha
      by_cases hx : x = c
      · rw [if_pos hx] at ha
        rcases List.mem_cons.mp ha with rfl | h1
        · exact Or.inr (Or.inr rfl)
        · rcases ih none a h1 with h2 | ⟨b', hb', -⟩ | h3
          · exact Or.inl (List.mem_cons_of_mem x h2)
          · exact absurd hb' (by simp)
          · exact Or.inr (Or.inr h3)
      · rw [if_neg hx] at ha
        rcases ih (some (x :: b)) a ha with h1 | ⟨b', hb', h2⟩ | h3
        · exact Or.inl (List.mem_cons_of_mem x h1)
        · injection hb' with hb'
          rw [← hb'] at h2
          rcases List.mem_cons.mp h2 with rfl | h4
          · exact Or.inl (List.mem_cons_self a xs)
          · exact Or.inr (Or.inl ⟨b, rfl, h4⟩)
        · exact Or.inr (Or.inr h3)

theorem mem_stripSpan (o c : Char) (l : List Char) (a : Char)
    (h : a ∈ stripSpan o c l) : a ∈ l ∨ a = ' ' := by
  rcases mem_stripSpanGo o c l none a h with h1 | ⟨b, hb, -⟩ | h2
  · exact Or.inl h1
  · exact absurd hb (by simp)
  · exact Or.inr h2

theorem matchFeatWord_spec (l rest : List Char)
    (h : matchFeatWord l = some rest) :
    boundaryOk rest = true ∧
    (l = ['f', 'e', 'a', 't'] ++ rest ∨ l = ['f', 't'] ++ rest ∨
     l = ['f', 'e', 'a', 't', 'u', 'r', 'i', 'n', 'g'] ++ rest) := by
  unfold matchFeatWord at h
  split at h
  · split at h
    · next hb =>
      injection h with h
      subst h
      exact ⟨hb, Or.inr (Or.inr rfl)⟩
    · exact absurd h (by simp)
  · split at h
    · next hb =>
      injection h with h
      subst h
      exact ⟨hb, Or.inl rfl⟩
    · exact absurd h (by simp)
  · split at h
    · next hb =>
      injection h with h
      subst h
      exact ⟨hb, Or.inr (Or.inl rfl)⟩
    · exact absurd h (by simp)
  · exact absurd h (by simp)

theorem featPunct_mem (rest : List Char) (a : Char) (h : a ∈ featPunct rest) :
    a ∈ rest := by
  cases rest with
  | nil => simp [featPunct] at h
  | cons c cs =>
    simp only [featPunct] at h
    split at h
    · exact List.mem_cons_of_mem c h
    · exact h

theorem featTail_mem (rest leftover : List Char)
    (h : featTail rest = some leftover) : ∀ a ∈ leftover, a ∈ rest := by
  unfold featTail at h
  split at h
  · injection h with h
    intro a ha
    rw [← h] at ha
    simp at ha
  · next heq =>
    injection h with h
    intro a ha
    rw [← h] at ha
    have ha' : a = '\n' := by simpa using ha
    subst ha'
    have h1 : ('\n' : Char) ∈ List.dropWhile (fun c => !decide (c = '\n'))
        (List.dropWhile isSpaceChar (featPunct rest)) := by
      rw [heq]
      exact List.mem_singleton_self _
    exact featPunct_mem rest _ (mem_of_mem_dropWhile (mem_of_mem_dropWhile h1))
  · exact absurd h (by simp)

theorem featTail_of_nlfree (rest : List Char) (h : ∀ a ∈ rest, a ≠ '\n') :
    featTail rest = some [] := by
  have h3 : ((featPunct rest).dropWhile isSpaceChar).dropWhile
      (fun c => !decide (c = '\n')) = [] := by
    rw [List.dropWhile_eq_nil_iff]
    intro a ha
    have := h a (featPunct_mem rest a (mem_of_mem_dropWhile ha))
    simpa using this
  unfold featTail
  rw [h3]

theorem mem_stripFeatGo (l : List Char) :
    ∀ (prev : Bool) (a : Char), a ∈ stripFeatGo prev l → a ∈ l ∨ a = ' ' := by
  induction l with
  | nil =>
    intro prev a ha
    cases prev <;> simp [stripFeatGo] at ha
  | cons c cs ih =>
    intro prev a ha
    cases prev with
    | true =>
      simp only [stripFeatGo, if_true] at ha
      rcases List.mem_cons.mp ha with rfl | h1
      · exact Or.inl (List.mem_cons_self a cs)
      · rcases ih (isWordChar c) a h1 with h2 | h2
        · exact Or.inl (List.mem_cons_of_mem c h2)
        · exact Or.inr h2
    | false =>
      simp only [stripFeatGo, Bool.false_eq_true, if_false] at ha
      rcases hm : matchFeatWord (c :: cs) with _ | rest
      · rw [hm] at ha
        rcases List.mem_cons.mp ha with rfl | h1
        · exact Or.inl (List.mem_cons_self a cs)
        · rcases ih (isWordChar c) a h1 with h2 | h2
          · exact Or.inl (List.mem_cons_of_mem c h2)
          · exact Or.inr h2
      · rw [hm] at ha
        dsimp only at ha
        rcases ht : featTail rest with _ | leftover
        · rw [ht] at ha
          dsimp only at ha
          rcases List.mem_cons.mp ha with rfl | h1
          · exact Or.inl (List.mem_cons_self a cs)
          · rcases ih (isWordChar c) a h1 with h2 | h2
            · exact Or.inl (List.mem_cons_of_mem c h2)
            · exact Or.inr h2
        · rw [ht] at ha
          dsimp only at ha
          rcases List.mem_cons.mp ha with rfl | h1
          · exact Or.inr rfl
          · have h2 := featTail_mem rest leftover ht a h1
            have h3 : a ∈ c :: cs := by
              rcases (matchFeatWord_spec (c :: cs) rest hm).2 with he | he | he <;>
                (rw [he]; simp [h2])
            exact Or.inl h3

theorem mem_firstSegment (l : List Char) (a : Char) (h : a ∈ firstSegment l) :
    a ∈ l := by
  induction l with
  | nil => simp [firstSegment] at h
  | cons c cs ih =>
    rcases cs with _ | ⟨d, cs'⟩
    · simpa [firstSegment] using h
    · rcases cs' with _ | ⟨e, cs''⟩
      · simp only [firstSegment] at h
        rcases List.mem_cons.mp h with rfl | h1
        · exact List.mem_cons_self a _
        · exact List.mem_cons_of_mem c (ih h1)
      · simp only [firstSegment] at h
        split at h
        · simp at h
        · rcases List.mem_cons.mp h with rfl | h1
          · exact List.mem_cons_self a _
          · exact List.mem_cons_of_mem c (ih h1)

theorem mem_stripPunct (l : List Char) (a : Char) (h : a ∈ stripPunct l) :
    a ∈ l ∨ a = ' ' := by
  unfold stripPunct at h
  rcases List.mem_map.mp h with ⟨b, hb, he⟩
  by_cases hw : (!isWordChar b && !isSpaceChar b) = true
  · rw [if_pos hw] at he
    exact Or.inr he.symm
  · rw [if_neg hw] at he
    rw [← he]
    exact Or.inl hb

theorem mem_collapseGo (l : List Char) :
    ∀ (prev : Bool) (a : Char), a ∈ collapseGo prev l →
      (a ∈ l ∧ isSpaceChar a = false) ∨ a = ' ' := by
  induction l with
  | nil =>
    intro prev a ha
    simp [collapseGo] at ha
  | cons c cs ih =>
    intro prev a ha
    simp only [collapseGo] at ha
    by_cases hc : isSpaceChar c = true
    · rw [if_pos hc] at ha
      cases prev with
      | true =>
        rcases ih true a ha with ⟨h1, h2⟩ | h1
        · exact Or.inl ⟨List.mem_cons_of_mem c h1, h2⟩
        · exact Or.inr h1
      | false =>
        simp only [Bool.false_eq_true, if_false] at ha
        rcases List.mem_cons.mp ha with rfl | h1
        · exact Or.inr rfl
        · rcases ih true a h1 with ⟨h2, h3⟩ | h2
          · exact Or.inl ⟨List.mem_cons_of_mem c h2, h3⟩
          · exact Or.inr h2
    · rw [if_neg hc] at ha
      rcases List.mem_cons.mp ha with rfl | h1
      · exact Or.inl ⟨List.mem_cons_self a cs, Bool.not_eq_true _ ▸ hc⟩
      · rcases ih false a h1 with ⟨h2, h3⟩ | h2
        · exact Or.inl ⟨List.mem_cons_of_mem c h2, h3⟩
        · exact Or.inr h2

theorem mem_dropTrailing (l : List Char) (a : Char) (h : a ∈ dropTrailing l) :
    a ∈ l := by
  induction l with
  | nil => simp [dropTrailing] at h
  | cons c cs ih =>
    simp only [dropTrailing] at h
    rcases hd : dropTrailing cs with _ | ⟨r, rs⟩
    · rw [hd] at h
      dsimp only at h
      split at h
      · simp at h
      · have ha : a = c := by simpa using h
        rw [ha]
        exact List.mem_cons_self c cs
    · rw [hd] at h
      dsimp only at h
      rcases List.mem_cons.mp h with rfl | h1
      · exact List.mem_cons_self a cs
      · exact List.mem_cons_of_mem c (ih (by rw [hd]; exact h1))

theorem mem_pyStrip (l : List Char) (a : Char) (h : a ∈ pyStrip l) : a ∈ l :=
  mem_of_mem_dropWhile (mem_dropTrailing _ a h)

/-! ### Toward C8: characterization of `normalizeList` output -/

theorem stripPunct_word_of_not_space (l : List Char) (a : Char)
    (h : a ∈ stripPunct l) (hs : isSpaceChar a = false) :
    isWordChar a = true := by
  unfold stripPunct at h
  rcases List.mem_map.mp h with ⟨b, -, he⟩
  by_cases hb : (!isWordChar b && !isSpaceChar b) = true
  · rw [if_pos hb] at he
    rw [← he] at hs
    exact absurd hs (by decide)
  · rw [if_neg hb] at he
    subst he
    rw [Bool.and_eq_true, Bool.not_eq_true', Bool.not_eq_true'] at hb
    push_neg at hb
    rcases Bool.eq_false_or_eq_true (isWordChar b) with hwb | hwb
    · exact hwb
    · exact absurd hs (hb hwb)

theorem charClass_normalizeList (l : List Char) :
    ∀ a ∈ normalizeList l, isWordChar a = true ∨ a = ' ' := by
  intro a ha
  unfold normalizeList at ha
  have h1 := mem_pyStrip _ a ha
  rcases mem_collapseGo _ false a h1 with ⟨h2, hnsp⟩ | h2
  · exact Or.inl (stripPunct_word_of_not_space _ a h2 hnsp)
  · exact Or.inr h2

theorem lowerFix_normalizeList (l : List Char) :
    ∀ a ∈ normalizeList l, pyLowerChar a = a := by
  intro a ha
  unfold normalizeList at ha
  have h1 := mem_pyStrip _ a ha
  rcases mem_collapseGo _ false a h1 with ⟨h2, -⟩ | h2
  · rcases mem_stripPunct _ a h2 with h3 | h3
    · have h4 := mem_firstSegment _ a h3
      rcases mem_stripFeatGo _ false a h4 with h5 | h5
      · rcases mem_stripSpan '{' '}' _ a h5 with h6 | h6
        · rcases mem_stripSpan '[' ']' _ a h6 with h7 | h7
          · rcases mem_stripSpan '(' ')' _ a h7 with h8 | h8
            · rcases List.mem_map.mp h8 with ⟨b, -, he⟩
              rw [← he]
              exact pyLowerChar_idem b
            · rw [h8]; rfl
          · rw [h7]; rfl
        · rw [h6]; rfl
      · rw [h5]; rfl
    · rw [h3]; rfl
  · rw [h2]; rfl

/-! ### Toward C8: stages fix canonical strings -/

theorem stripSpanGo_fix (o c : Char) (l : List Char)
    (h : ∀ a ∈ l, a ≠ o) : stripSpanGo o c none l = l := by
  induction l with
  | nil => rfl
  | cons x xs ih =>
    have hx : x ≠ o := h x (List.mem_cons_self x xs)
    simp only [stripSpanGo, if_neg hx]
    rw [ih (fun a ha => h a (List.mem_cons_of_mem x ha))]

theorem firstSegment_fix (l : List Char)
    (h : ∀ a ∈ l, isDashChar a = false) : firstSegment l = l := by
  induction l with
  | nil => rfl
  | cons x xs ih =>
    have hrec : firstSegment xs = xs :=
      ih (fun a ha => h a (List.mem_cons_of_mem x ha))
    rcases xs with _ | ⟨d, xs'⟩
    · rfl
    · rcases xs' with _ | ⟨e, xs''⟩
      · rfl
      · have hd : isDashChar d = false :=
          h d (List.mem_cons_of_mem x (List.mem_cons_self d _))
        simp only [firstSegment] at hrec ⊢
        rw [hd]
        simp only [Bool.and_false, Bool.false_and, Bool.false_eq_true, if_false]
        rw [hrec]

theorem stripPunct_fix (l : List Char)
    (h : ∀ a ∈ l, isWordChar a = true ∨ a = ' ') : stripPunct l = l := by
  induction l with
  | nil => rfl
  | cons x xs ih =>
    have hx : (if (!isWordChar x && !isSpaceChar x) = true then ' ' else x) = x := by
      rcases h x (List.mem_cons_self x xs) with hw | hsp
      · simp [hw]
      · rw [hsp]
        decide
    have hxs := ih (fun a ha => h a (List.mem_cons_of_mem x ha))
    unfold stripPunct at hxs ⊢
    rw [List.map_cons, hx, hxs]

theorem pyLower_fix (l : List Char)
    (h : ∀ a ∈ l, pyLowerChar a = a) : pyLower l = l := by
  induction l with
  | nil => rfl
  | cons x xs ih =>
    have hxs := ih (fun a ha => h a (List.mem_cons_of_mem x ha))
    unfold pyLower at hxs ⊢
    rw [List.map_cons, h x (List.mem_cons_self x xs), hxs]

/-! ### Toward C8: whitespace layout of the collapsed output -/

theorem bool_not_true {b : Bool} (h : ¬(b = true)) : b = false := by
  cases b
  · rfl
  · exact absurd rfl h

theorem headNotSpace_collapseGo_true (l : List Char) :
    headNotSpace (collapseGo true l) = true := by
  induction l with
  | nil => rfl
  | cons c cs ih =>
    simp only [collapseGo]
    by_cases hc : isSpaceChar c = true
    · rw [if_pos hc]
      exact ih
    · rw [if_neg hc]
      simp only [headNotSpace]
      rw [bool_not_true hc]
      rfl

theorem collapseGo_true_of_headNotSpace (l : List Char)
    (h : headNotSpace l = true) : collapseGo true l = collapseGo false l := by
  cases l with
  | nil => rfl
  | cons c cs =>
    simp only [headNotSpace, Bool.not_eq_true'] at h
    simp only [collapseGo, h, Bool.false_eq_true, if_false]

theorem spacedOk_tail (c : Char) (cs : List Char)
    (h : spacedOk (c :: cs) = true) : spacedOk cs = true := by
  simp only [spacedOk, Bool.and_eq_true] at h
  exact h.2

theorem spacedOk_collapseGo (l : List Char) :
    ∀ prev : Bool, spacedOk (collapseGo prev l) = true := by
  induction l with
  | nil => intro prev; rfl
  | cons c cs ih =>
    intro prev
    simp only [collapseGo]
    by_cases hc : isSpaceChar c = true
    · rw [if_pos hc]
      cases prev with
      | true => exact ih true
      | false =>
        simp only [Bool.false_eq_true, if_false, spacedOk]
        rw [headNotSpace_collapseGo_true, ih true]
        decide
    · rw [if_neg hc]
      simp only [spacedOk]
      rw [bool_not_true hc, ih false]
      simp

theorem spacedOk_append_left (l₁ l₂ : List Char)
    (h : spacedOk (l₁ ++ l₂) = true) : spacedOk l₁ = true := by
  induction l₁ with
  | nil => rfl
  | cons c cs ih =>
    rw [List.cons_append] at h
    simp only [spacedOk, Bool.and_eq_true] at h ⊢
    refine ⟨?_, ih h.2⟩
    rcases h with ⟨h1, -⟩
    by_cases hc : isSpaceChar c = true
    · rw [if_pos hc] at h1 ⊢
      rw [Bool.and_eq_true] at h1 ⊢
      refine ⟨h1.1, ?_⟩
      rcases cs with _ | ⟨d, cs'⟩
      · rfl
      · rw [List.cons_append] at h1
        exact h1.2
    · rw [if_neg hc]

theorem spacedOk_append_right (l₁ l₂ : List Char)
    (h : spacedOk (l₁ ++ l₂) = true) : spacedOk l₂ = true := by
  induction l₁ with
  | nil => exact h
  | cons c cs ih =>
    rw [List.cons_append] at h
    exact ih (spacedOk_tail _ _ h)

theorem collapseGo_fix (l : List Char) (h : spacedOk l = true) :
    collapseGo false l = l := by
  induction l with
  | nil => rfl
  | cons c cs ih =>
    simp only [spacedOk, Bool.and_eq_true] at h
    rcases h with ⟨h1, h2⟩
    simp only [collapseGo]
    by_cases hc : isSpaceChar c = true
    · rw [if_pos hc]
      rw [if_pos hc, Bool.and_eq_true, decide_eq_true_eq] at h1
      rcases h1 with ⟨hc', hhd⟩
      simp only [Bool.false_eq_true, if_false]
      rw [collapseGo_true_of_headNotSpace cs hhd, ih h2, hc']
    · rw [if_neg hc]
      rw [ih h2]

theorem headNotSpace_dropWhile_space (l : List Char) :
    headNotSpace (l.dropWhile isSpaceChar) = true := by
  induction l with
  | nil => rfl
  | cons c cs ih =>
    by_cases hc : isSpaceChar c = true
    · rw [List.dropWhile_cons_of_pos hc]
      exact ih
    · rw [List.dropWhile_cons_of_neg hc]
      simp only [headNotSpace]
      rw [bool_not_true hc]
      rfl

theorem dropWhile_space_fix (l : List Char) (h : headNotSpace l = true) :
    l.dropWhile isSpaceChar = l := by
  cases l with
  | nil => rfl
  | cons c cs =>
    simp only [headNotSpace, Bool.not_eq_true'] at h
    rw [List.dropWhile_cons_of_neg (by rw [h]; simp)]

theorem dropTrailing_prefix (l : List Char) :
    ∃ s, l = dropTrailing l ++ s := by
  induction l with
  | nil => exact ⟨[], rfl⟩
  | cons c cs ih =>
    obtain ⟨s, hs⟩ := ih
    simp only [dropTrailing]
    rcases hd : dropTrailing cs with _ | ⟨r, rs⟩
    · by_cases hc : isSpaceChar c = true
      · rw [if_pos hc]
        exact ⟨c :: cs, rfl⟩
      · rw [if_neg hc]
        refine ⟨cs, ?_⟩
        rw [hd] at hs
        simp only [List.nil_append] at hs
        rfl
    · rw [hd] at hs
      exact ⟨s, by rw [List.cons_append, ← hs]⟩

theorem dropTrailing_idem (l : List Char) :
    dropTrailing (dropTrailing l) = dropTrailing l := by
  induction l with
  | nil => rfl
  | cons c cs ih =>
    simp only [dropTrailing]
    rcases hd : dropTrailing cs with _ | ⟨r, rs⟩
    · by_cases hc : isSpaceChar c = true
      · rw [if_pos hc]
        rfl
      · rw [if_neg hc]
        simp only [dropTrailing]
        rw [if_neg hc]
    · rw [hd] at ih
      have hstep : dropTrailing (c :: r :: rs) =
          match dropTrailing (r :: rs) with
          | [] => if isSpaceChar c = true then [] else [c]
          | x => c :: x := rfl
      rw [hstep, ih]

theorem headNotSpace_dropTrailing (l : List Char)
    (h : headNotSpace l = true) : headNotSpace (dropTrailing l) = true := by
  cases l with
  | nil => rfl
  | cons c cs =>
    simp only [headNotSpace, Bool.not_eq_true'] at h
    simp only [dropTrailing]
    rcases dropTrailing cs with _ | ⟨r, rs⟩
    · rw [if_neg (by rw [h]; simp)]
      simp only [headNotSpace]
      rw [h]
      rfl
    · simp only [headNotSpace]
      rw [h]
      rfl

/-! ### Toward C8: word runs -/

theorem wordRunsGo_all_nonword (l : List Char)
    (h : ∀ a ∈ l, isWordChar a = false) :
    ∀ cur : List Char,
      wordRunsGo cur l = if cur.isEmpty then [] else [cur.reverse] := by
  induction l with
  | nil => intro cur; rfl
  | cons c cs ih =>
    intro cur
    have hc := h c (List.mem_cons_self c cs)
    have hrec := ih (fun a ha => h a (List.mem_cons_of_mem c ha))
    simp only [wordRunsGo, hc, Bool.false_eq_true, if_false]
    by_cases hcur : cur.isEmpty = true
    · rw [if_pos hcur, if_pos hcur, hrec []]
      rfl
    · rw [if_neg hcur, if_neg hcur, hrec []]
      rfl

theorem wordRunsGo_ne_nil (l : List Char) :
    ∀ cur : List Char, cur ≠ [] →
      wordRunsGo cur l = (cur.reverse ++ l.takeWhile isWordChar) ::
        wordRunsGo [] (l.dropWhile isWordChar) := by
  induction l with
  | nil =>
    intro cur hcur
    simp only [wordRunsGo, List.takeWhile_nil, List.dropWhile_nil,
      List.append_nil]
    rw [if_neg (by simpa using hcur)]
    rfl
  | cons c cs ih =>
    intro cur hcur
    by_cases hc : isWordChar c = true
    · simp only [wordRunsGo, hc, if_true]
      rw [ih (c :: cur) (by simp), List.takeWhile_cons_of_pos hc,
        List.dropWhile_cons_of_pos hc]
      simp
    · simp only [wordRunsGo, hc, Bool.false_eq_true, if_false]
      rw [if_neg (by simpa using hcur),
        List.takeWhile_cons_of_neg (by simp [hc]),
        List.dropWhile_cons_of_neg (by simp [hc])]
      simp only [List.append_nil]
      have : wordRunsGo [] (c :: cs) = wordRunsGo [] cs := by
        simp [wordRunsGo, hc]
      rw [this]

theorem firstRun_mem (c : Char) (cs : List Char) (hc : isWordChar c = true) :
    (c :: cs.takeWhile isWordChar) ∈ wordRunsGo [] (c :: cs) := by
  have h1 : wordRunsGo [] (c :: cs) = wordRunsGo [c] cs := by
    simp [wordRunsGo, hc]
  rw [h1, wordRunsGo_ne_nil cs [c] (by simp)]
  simp

theorem wordRunsGo_append_nonword (b : Char) (hb : isWordChar b = false)
    (l₂ : List Char) :
    ∀ (a cur : List Char),
      wordRunsGo cur (a ++ b :: l₂) = wordRunsGo cur a ++ wordRunsGo [] l₂ := by
  intro a
  induction a with
  | nil =>
    intro cur
    simp only [List.nil_append, wordRunsGo, hb, Bool.false_eq_true, if_false]
    by_cases hcur : cur.isEmpty = true
    · rw [if_pos hcur]
      simp only [wordRunsGo, if_pos hcur]
      rfl
    · rw [if_neg hcur]
      simp only [wordRunsGo, if_neg hcur]
      rfl
  | cons x a' ih =>
    intro cur
    rw [List.cons_append]
    by_cases hx : isWordChar x = true
    · simp only [wordRunsGo, hx, if_true]
      exact ih (x :: cur)
    · simp only [wordRunsGo, hx, Bool.false_eq_true, if_false]
      by_cases hcur : cur.isEmpty = true
      · rw [if_pos hcur, if_pos hcur]
        exact ih []
      · rw [if_neg hcur, if_neg hcur, ih []]
        rfl

theorem wordRunsGo_cons_word (c : Char) (cs cur : List Char)
    (h : isWordChar c = true) :
    wordRunsGo cur (c :: cs) = wordRunsGo (c :: cur) cs := by
  simp [wordRunsGo, h]

theorem wordRunsGo_cons_nonword (c : Char) (cs cur : List Char)
    (h : isWordChar c = false) :
    wordRunsGo cur (c :: cs) =
      if cur.isEmpty = true then wordRunsGo [] cs
      else cur.reverse :: wordRunsGo [] cs := by
  simp only [wordRunsGo, h, Bool.false_eq_true, if_false]

theorem wordRunsGo_stripPunct (l : List Char) :
    ∀ cur : List Char, wordRunsGo cur (stripPunct l) = wordRunsGo cur l := by
  induction l with
  | nil => intro cur; rfl
  | cons c cs ih =>
    intro cur
    unfold stripPunct at ih ⊢
    rw [List.map_cons]
    by_cases hc : isWordChar c = true
    · have hf : (if (!isWordChar c && !isSpaceChar c) = true then ' ' else c) =
          c := by simp [hc]
      rw [hf]
      simp only [wordRunsGo, hc, if_true]
      exact ih (c :: cur)
    · by_cases hf : (!isWordChar c && !isSpaceChar c) = true
      · rw [if_pos hf]
        simp only [wordRunsGo, hc, Bool.false_eq_true, if_false,
          show isWordChar ' ' = false from by decide]
        exact if_congr Iff.rfl (ih []) (by rw [ih []])
      · rw [if_neg hf]
        simp only [wordRunsGo, hc, Bool.false_eq_true, if_false]
        exact if_congr Iff.rfl (ih []) (by rw [ih []])

theorem wordRunsGo_collapseGo (l : List Char) :
    ∀ (prev : Bool) (cur : List Char), (prev = true → cur = []) →
      wordRunsGo cur (collapseGo prev l) = wordRunsGo cur l := by
  induction l with
  | nil => intro prev cur _; rfl
  | cons c cs ih =>
    intro prev cur hpc
    simp only [collapseGo]
    by_cases hc : isSpaceChar c = true
    · have hw : isWordChar c = false := not_word_of_space c hc
      rw [if_pos hc]
      cases prev with
      | true =>
        have hcur : cur = [] := hpc rfl
        subst hcur
        rw [if_pos rfl, ih true [] (fun _ => rfl),
          wordRunsGo_cons_nonword c cs [] hw]
        rfl
      | false =>
        rw [if_neg (by simp),
          wordRunsGo_cons_nonword ' ' (collapseGo true cs) cur (by decide),
          wordRunsGo_cons_nonword c cs cur hw, ih true [] (fun _ => rfl)]
    · rw [if_neg hc]
      by_cases hw : isWordChar c = true
      · rw [wordRunsGo_cons_word c (collapseGo false cs) cur hw,
          wordRunsGo_cons_word c cs cur hw]
        exact ih false (c :: cur) (by simp)
      · rw [wordRunsGo_cons_nonword c (collapseGo false cs) cur
            (bool_not_true hw),
          wordRunsGo_cons_nonword c cs cur (bool_not_true hw),
          ih false [] (by simp)]

theorem wordRunsGo_dropWhile_space (l : List Char) :
    wordRunsGo [] (l.dropWhile isSpaceChar) = wordRunsGo [] l := by
  induction l with
  | nil => rfl
  | cons c cs ih =>
    by_cases hc : isSpaceChar c = true
    · rw [List.dropWhile_cons_of_pos hc, ih]
      have hw : isWordChar c = false := not_word_of_space c hc
      simp [wordRunsGo, hw]
    · rw [List.dropWhile_cons_of_neg hc]

theorem dropTrailing_eq_nil_all_space (l : List Char)
    (h : dropTrailing l = []) : ∀ a ∈ l, isSpaceChar a = true := by
  induction l with
  | nil => simp
  | cons c cs ih =>
    simp only [dropTrailing] at h
    rcases hd : dropTrailing cs with _ | ⟨r, rs⟩
    · rw [hd] at h
      dsimp only at h
      split at h
      · next hc =>
        intro a ha
        rcases List.mem_cons.mp ha with rfl | h1
        · exact hc
        · exact ih hd a h1
      · simp at h
    · rw [hd] at h
      simp at h

theorem wordRunsGo_dropTrailing (l : List Char) :
    ∀ cur : List Char, wordRunsGo cur (dropTrailing l) = wordRunsGo cur l := by
  induction l with
  | nil => intro cur; rfl
  | cons c cs ih =>
    intro cur
    simp only [dropTrailing]
    rcases hd : dropTrailing cs with _ | ⟨r, rs⟩
    · have hall : ∀ a ∈ cs, isSpaceChar a = true :=
        dropTrailing_eq_nil_all_space cs hd
      have hallw : ∀ a ∈ cs, isWordChar a = false :=
        fun a ha => not_word_of_space a (hall a ha)
      by_cases hc : isSpaceChar c = true
      · rw [if_pos hc]
        have hw : isWordChar c = false := not_word_of_space c hc
        rw [wordRunsGo_cons_nonword c cs cur hw,
          wordRunsGo_all_nonword cs hallw []]
        cases cur <;> rfl
      · rw [if_neg hc]
        by_cases hw : isWordChar c = true
        · rw [wordRunsGo_cons_word c ([] : List Char) cur hw,
            wordRunsGo_cons_word c cs cur hw,
            wordRunsGo_all_nonword cs hallw (c :: cur)]
          rfl
        · rw [wordRunsGo_cons_nonword c ([] : List Char) cur (bool_not_true hw),
            wordRunsGo_cons_nonword c cs cur (bool_not_true hw),
            wordRunsGo_all_nonword cs hallw []]
          cases cur <;> rfl
    · rw [hd] at ih
      by_cases hw : isWordChar c = true
      · rw [wordRunsGo_cons_word c (r :: rs) cur hw,
          wordRunsGo_cons_word c cs cur hw]
        exact ih (c :: cur)
      · rw [wordRunsGo_cons_nonword c (r :: rs) cur (bool_not_true hw),
          wordRunsGo_cons_nonword c cs cur (bool_not_true hw), ih []]

theorem wordRuns_firstSegment_sub (l : List Char) :
    ∀ (cur w : List Char),
      w ∈ wordRunsGo cur (firstSegment l) → w ∈ wordRunsGo cur l := by
  induction l with
  | nil => intro cur w hw; exact hw
  | cons c cs ih =>
    intro cur w hw
    rcases cs with _ | ⟨d, cs'⟩
    · exact hw
    · rcases cs' with _ | ⟨e, cs''⟩
      · exact hw
      · by_cases hcut : (isSpaceChar c && isDashChar d && isSpaceChar e) = true
        · have hfs : firstSegment (c :: d :: e :: cs'') = [] := by
            simp [firstSegment, hcut]
          rw [hfs] at hw
          rw [Bool.and_eq_true, Bool.and_eq_true] at hcut
          have hwc : isWordChar c = false := not_word_of_space c hcut.1.1
          rw [wordRunsGo_cons_nonword c (d :: e :: cs'') cur hwc]
          by_cases hcur : cur.isEmpty = true
          · rw [show wordRunsGo cur [] = [] from by
              simp [wordRunsGo, hcur]] at hw
            simp at hw
          · rw [show wordRunsGo cur [] = [cur.reverse] from by
              simp [wordRunsGo, hcur]] at hw
            rw [if_neg hcur]
            have : w = cur.reverse := by simpa using hw
            rw [this]
            exact List.mem_cons_self _ _
        · have hfs : firstSegment (c :: d :: e :: cs'') =
              c :: firstSegment (d :: e :: cs'') := by
            simp [firstSegment, hcut]
          rw [hfs] at hw
          by_cases hwc : isWordChar c = true
          · rw [wordRunsGo_cons_word c _ cur hwc] at hw
            rw [wordRunsGo_cons_word c _ cur hwc]
            exact ih (c :: cur) w hw
          · rw [wordRunsGo_cons_nonword c _ cur (bool_not_true hwc)] at hw
            rw [wordRunsGo_cons_nonword c _ cur (bool_not_true hwc)]
            by_cases hcur : cur.isEmpty = true
            · rw [if_pos hcur] at hw ⊢
              exact ih [] w hw
            · rw [if_neg hcur] at hw ⊢
              rcases List.mem_cons.mp hw with rfl | hw'
              · exact List.mem_cons_self _ _
              · exact List.mem_cons_of_mem _ (ih [] w hw')

/-! ### Toward C8: the feat scan and word runs -/

theorem dropWhile_head_false (p : Char → Bool) (l : List Char) :
    ∀ r rs, l.dropWhile p = r :: rs → p r = false := by
  induction l with
  | nil => intro r rs h; simp at h
  | cons c cs ih =>
    intro r rs h
    by_cases hc : p c = true
    · rw [List.dropWhile_cons_of_pos hc] at h
      exact ih r rs h
    · rw [List.dropWhile_cons_of_neg hc] at h
      injection h with h1 h2
      rw [← h1]
      exact bool_not_true hc

theorem takeWhile_word_append (W rest : List Char)
    (hW : ∀ a ∈ W, isWordChar a = true) (hb : boundaryOk rest = true) :
    (W ++ rest).takeWhile isWordChar = W ∧
    (W ++ rest).dropWhile isWordChar = rest := by
  induction W with
  | nil =>
    simp only [List.nil_append]
    cases rest with
    | nil => exact ⟨rfl, rfl⟩
    | cons r rrest =>
      simp only [boundaryOk, Bool.not_eq_true'] at hb
      exact ⟨List.takeWhile_cons_of_neg (by simp [hb]),
             List.dropWhile_cons_of_neg (by simp [hb])⟩
  | cons a W' ih =>
    have ha : isWordChar a = true := hW a (List.mem_cons_self a W')
    have ihs := ih (fun x hx => hW x (List.mem_cons_of_mem a hx))
    rw [List.cons_append]
    exact ⟨by rw [List.takeWhile_cons_of_pos ha, ihs.1],
           by rw [List.dropWhile_cons_of_pos ha, ihs.2]⟩

theorem matchFeatWord_run (l rest : List Char)
    (h : matchFeatWord l = some rest) :
    l.takeWhile isWordChar ∈ featWords ∧ l.dropWhile isWordChar = rest := by
  obtain ⟨hb, hshape⟩ := matchFeatWord_spec l rest h
  rcases hshape with he | he | he <;> subst he
  · have hw := takeWhile_word_append ['f', 'e', 'a', 't'] rest (by decide) hb
    exact ⟨by rw [hw.1]; decide, hw.2⟩
  · have hw := takeWhile_word_append ['f', 't'] rest (by decide) hb
    exact ⟨by rw [hw.1]; decide, hw.2⟩
  · have hw := takeWhile_word_append
      ['f', 'e', 'a', 't', 'u', 'r', 'i', 'n', 'g'] rest (by decide) hb
    exact ⟨by rw [hw.1]; decide, hw.2⟩

theorem matchFeatWord_feat (rest : List Char) (hb : boundaryOk rest = true) :
    matchFeatWord (['f', 'e', 'a', 't'] ++ rest) = some rest := by
  cases rest with
  | nil => rfl
  | cons r rrest =>
    have hr : isWordChar r = false := by
      simpa only [boundaryOk, Bool.not_eq_true'] using hb
    unfold matchFeatWord
    split
    · next heq =>
      injection heq with h1 heq
      injection heq with h2 heq
      injection heq with h3 heq
      injection heq with h4 heq
      injection heq with h5 heq
      rw [h5] at hr
      exact absurd hr (by decide)
    · next heq =>
      injection heq with h1 heq
      injection heq with h2 heq
      injection heq with h3 heq
      injection heq with h4 heq
      simp only [List.append_eq, List.nil_append] at heq
      rw [← heq, if_pos hb]
    · next heq =>
      injection heq with h1 heq
      injection heq with h2 heq
      exact absurd h2.symm (by decide)
    · next hne1 hne2 hne3 =>
      exact absurd rfl (hne2 (r :: rrest))

theorem matchFeatWord_ft (rest : List Char) (hb : boundaryOk rest = true) :
    matchFeatWord (['f', 't'] ++ rest) = some rest := by
  cases rest with
  | nil => rfl
  | cons r rrest =>
    have hr : isWordChar r = false := by
      simpa only [boundaryOk, Bool.not_eq_true'] using hb
    unfold matchFeatWord
    split
    · next heq =>
      injection heq with h1 heq
      injection heq with h2 heq
      exact absurd h2 (by decide)
    · next heq =>
      injection heq with h1 heq
      injection heq with h2 heq
      exact absurd h2 (by decide)
    · next heq =>
      injection heq with h1 heq
      injection heq with h2 heq
      simp only [List.append_eq, List.nil_append] at heq
      rw [← heq, if_pos hb]
    · next hne1 hne2 hne3 =>
      exact absurd rfl (hne3 (r :: rrest))

theorem matchFeatWord_featuring (rest : List Char)
    (hb : boundaryOk rest = true) :
    matchFeatWord (['f', 'e', 'a', 't', 'u', 'r', 'i', 'n', 'g'] ++ rest) =
      some rest := by
  unfold matchFeatWord
  split
  · next heq =>
    injection heq with h1 heq
    injection heq with h2 heq
    injection heq with h3 heq
    injection heq with h4 heq
    injection heq with h5 heq
    injection heq with h6 heq
    injection heq with h7 heq
    injection heq with h8 heq
    injection heq with h9 heq
    simp only [List.append_eq, List.nil_append] at heq
    rw [← heq, if_pos hb]
  · next hno heq =>
    injection heq with h1 heq
    injection heq with h2 heq
    injection heq with h3 heq
    injection heq with h4 heq
    simp only [List.append_eq, List.nil_append] at heq
    exact absurd heq.symm (by intro hh; exact hno rest hh)
  · next heq =>
    injection heq with h1 heq
    injection heq with h2 heq
    exact absurd h2 (by decide)
  · next hne1 hne2 hne3 =>
    exact absurd rfl (hne1 rest)

theorem matchFeatWord_none_run (l : List Char) (h : matchFeatWord l = none) :
    l.takeWhile isWordChar ∉ featWords := by
  intro hmem
  have hsplit : l.takeWhile isWordChar ++ l.dropWhile isWordChar = l :=
    List.takeWhile_append_dropWhile isWordChar l
  have hbd : boundaryOk (l.dropWhile isWordChar) = true := by
    cases hd : l.dropWhile isWordChar with
    | nil => rfl
    | cons r rrest =>
      simp only [boundaryOk]
      rw [dropWhile_head_false isWordChar l r rrest hd]
      rfl
  simp only [featWords, List.mem_cons, List.not_mem_nil, or_false] at hmem
  rcases hmem with he | he | he
  · have h2 : matchFeatWord l = some (l.dropWhile isWordChar) := by
      conv_lhs => rw [← hsplit, he]
      exact matchFeatWord_feat _ hbd
    rw [h2] at h
    exact absurd h (by simp)
  · have h2 : matchFeatWord l = some (l.dropWhile isWordChar) := by
      conv_lhs => rw [← hsplit, he]
      exact matchFeatWord_ft _ hbd
    rw [h2] at h
    exact absurd h (by simp)
  · have h2 : matchFeatWord l = some (l.dropWhile isWordChar) := by
      conv_lhs => rw [← hsplit, he]
      exact matchFeatWord_featuring _ hbd
    rw [h2] at h
    exact absurd h (by simp)

theorem stripFeatGo_no_featRun (l : List Char) :
    ∀ (prev : Bool) (cur : List Char), prev = !cur.isEmpty →
      (∀ a ∈ l, a ≠ '\n') →
      (cur ≠ [] → cur.reverse ++ l.takeWhile isWordChar ∉ featWords) →
      ∀ w ∈ wordRunsGo cur (stripFeatGo prev l), w ∉ featWords := by
  induction l with
  | nil =>
    intro prev cur hp hnl hinv w hw
    rw [show stripFeatGo prev [] = [] from by cases prev <;> rfl] at hw
    by_cases hcur : cur.isEmpty = true
    · rw [show wordRunsGo cur [] = [] from by simp [wordRunsGo, hcur]] at hw
      simp at hw
    · rw [show wordRunsGo cur [] = [cur.reverse] from by
        simp [wordRunsGo, hcur]] at hw
      have hw' : w = cur.reverse := by simpa using hw
      rw [hw']
      have := hinv (by simpa [List.isEmpty_iff] using hcur)
      simpa using this
  | cons c cs ih =>
    intro prev cur hp hnl hinv w hw
    have hnl' : ∀ a ∈ cs, a ≠ '\n' :=
      fun a ha => hnl a (List.mem_cons_of_mem c ha)
    by_cases hcur : cur.isEmpty = true
    · have hcur' : cur = [] := by simpa [List.isEmpty_iff] using hcur
      subst hcur'
      rw [hp] at hw
      rcases hm : matchFeatWord (c :: cs) with _ | rest
      · have hfs : stripFeatGo (!(List.isEmpty ([] : List Char))) (c :: cs) =
            c :: stripFeatGo (isWordChar c) cs := by
          simp [stripFeatGo, hm]
        rw [hfs] at hw
        by_cases hwc : isWordChar c = true
        · rw [wordRunsGo_cons_word c _ [] hwc] at hw
          refine ih (isWordChar c) [c] (by rw [hwc]; rfl) hnl' ?_ w hw
          intro _
          rw [List.reverse_singleton, List.singleton_append,
            ← List.takeWhile_cons_of_pos hwc]
          exact matchFeatWord_none_run (c :: cs) hm
        · rw [wordRunsGo_cons_nonword c _ [] (bool_not_true hwc)] at hw
          rw [if_pos hcur] at hw
          exact ih (isWordChar c) [] (by rw [bool_not_true hwc]; rfl) hnl'
            (fun hne => absurd rfl hne) w hw
      · have hrest_nl : ∀ a ∈ rest, a ≠ '\n' := by
          intro a ha
          obtain ⟨-, hshape⟩ := matchFeatWord_spec (c :: cs) rest hm
          refine hnl a ?_
          rcases hshape with he | he | he <;> (rw [he]; simp [ha])
        have hft : featTail rest = some [] := featTail_of_nlfree rest hrest_nl
        have hfs : stripFeatGo (!(List.isEmpty ([] : List Char))) (c :: cs) = [' '] := by
          simp [stripFeatGo, hm, hft]
        rw [hfs] at hw
        rw [show wordRunsGo ([] : List Char) [' '] = [] from by rfl] at hw
        simp at hw
    · have hcne : cur ≠ [] := by simpa [List.isEmpty_iff] using hcur
      have hfs : stripFeatGo prev (c :: cs) =
          c :: stripFeatGo (isWordChar c) cs := by
        rw [hp, bool_not_true hcur]
        rfl
      rw [hfs] at hw
      by_cases hwc : isWordChar c = true
      · rw [wordRunsGo_cons_word c _ cur hwc] at hw
        refine ih (isWordChar c) (c :: cur) (by rw [hwc]; rfl) hnl' ?_ w hw
        intro _
        rw [List.reverse_cons, List.append_assoc, List.singleton_append,
          ← List.takeWhile_cons_of_pos hwc]
        exact hinv hcne
      · rw [wordRunsGo_cons_nonword c _ cur (bool_not_true hwc)] at hw
        rw [if_neg hcur] at hw
        rcases List.mem_cons.mp hw with rfl | hw2
        · have := hinv hcne
          rw [List.takeWhile_cons_of_neg (by simp [bool_not_true hwc]),
            List.append_nil] at this
          exact this
        · exact ih (isWordChar c) [] (by rw [bool_not_true hwc]; rfl) hnl'
            (fun hne => absurd rfl hne) w hw2

theorem stripFeat_no_featRun (l : List Char) (hnl : ∀ a ∈ l, a ≠ '\n') :
    ∀ w ∈ wordRuns (stripFeat l), w ∉ featWords := by
  intro w hw
  exact stripFeatGo_no_featRun l false [] rfl hnl
    (fun hne => absurd rfl hne) w hw

theorem stripFeatGo_fix (l : List Char) :
    ∀ (prev : Bool) (cur : List Char), prev = !cur.isEmpty →
      (∀ w ∈ wordRunsGo cur l, w ∉ featWords) →
      stripFeatGo prev l = l := by
  induction l with
  | nil =>
    intro prev cur _ _
    cases prev <;> rfl
  | cons c cs ih =>
    intro prev cur hp hruns
    by_cases hcur : cur.isEmpty = true
    · have hcur' : cur = [] := by simpa [List.isEmpty_iff] using hcur
      subst hcur'
      rw [hp]
      show stripFeatGo false (c :: cs) = c :: cs
      rcases hm : matchFeatWord (c :: cs) with _ | rest
      · have hfs : stripFeatGo false (c :: cs) =
            c :: stripFeatGo (isWordChar c) cs := by
          simp [stripFeatGo, hm]
        rw [hfs]
        congr 1
        by_cases hwc : isWordChar c = true
        · apply ih (isWordChar c) [c] (by rw [hwc]; rfl)
          intro w hw
          apply hruns w
          rw [wordRunsGo_cons_word c cs [] hwc]
          exact hw
        · apply ih (isWordChar c) [] (by rw [bool_not_true hwc]; rfl)
          intro w hw
          apply hruns w
          rw [wordRunsGo_cons_nonword c cs [] (bool_not_true hwc),
            if_pos hcur]
          exact hw
      · exfalso
        obtain ⟨hrun_mem, -⟩ := matchFeatWord_run (c :: cs) rest hm
        have hcw : isWordChar c = true := by
          by_cases hwc : isWordChar c = true
          · exact hwc
          · rw [List.takeWhile_cons_of_neg (by simp [bool_not_true hwc])]
              at hrun_mem
            exact absurd hrun_mem (by decide)
        rw [List.takeWhile_cons_of_pos hcw] at hrun_mem
        exact hruns _ (firstRun_mem c cs hcw) hrun_mem
    · have hfs : stripFeatGo prev (c :: cs) =
          c :: stripFeatGo (isWordChar c) cs := by
        rw [hp, bool_not_true hcur]
        rfl
      rw [hfs]
      congr 1
      by_cases hwc : isWordChar c = true
      · apply ih (isWordChar c) (c :: cur) (by rw [hwc]; rfl)
        intro w hw
        apply hruns w
        rw [wordRunsGo_cons_word c cs cur hwc]
        exact hw
      · apply ih (isWordChar c) [] (by rw [bool_not_true hwc]; rfl)
        intro w hw
        apply hruns w
        rw [wordRunsGo_cons_nonword c cs cur (bool_not_true hwc), if_neg hcur]
        exact List.mem_cons_of_mem _ hw

theorem stripFeat_fix (l : List Char)
    (h : ∀ w ∈ wordRuns l, w ∉ featWords) : stripFeat l = l :=
  stripFeatGo_fix l false [] rfl h

theorem word_not_dash (a : Char) (hw : isWordChar a = true) :
    isDashChar a = false := by
  by_cases hd : isDashChar a = true
  · unfold isDashChar at hd
    simp only [Bool.or_eq_true, decide_eq_true_eq] at hd
    rcases hd with (rfl | rfl) | rfl <;> exact absurd hw (by decide)
  · exact bool_not_true hd

theorem pyStrip_collapse_layout (x : List Char) :
    spacedOk (pyStrip (collapseWs x)) = true ∧
    headNotSpace (pyStrip (collapseWs x)) = true ∧
    dropTrailing (pyStrip (collapseWs x)) = pyStrip (collapseWs x) := by
  have hsp8 : spacedOk (collapseGo false x) = true := spacedOk_collapseGo x false
  have hv_sp : spacedOk ((collapseGo false x).dropWhile isSpaceChar) = true := by
    have hsplit := List.takeWhile_append_dropWhile isSpaceChar
      (collapseGo false x)
    exact spacedOk_append_right _ _ (by rw [hsplit]; exact hsp8)
  have hv_hd : headNotSpace ((collapseGo false x).dropWhile isSpaceChar) =
      true := headNotSpace_dropWhile_space _
  obtain ⟨s, hs⟩ :=
    dropTrailing_prefix ((collapseGo false x).dropWhile isSpaceChar)
  refine ⟨?_, ?_, ?_⟩
  · refine spacedOk_append_left _ s ?_
    show spacedOk (dropTrailing
      (List.dropWhile isSpaceChar (collapseGo false x)) ++ s) = true
    rw [← hs]; exact hv_sp
  · exact headNotSpace_dropTrailing _ hv_hd
  · exact dropTrailing_idem _

theorem pyStrip_fix_of (y : List Char) (h1 : headNotSpace y = true)
    (h2 : dropTrailing y = y) : pyStrip y = y := by
  show dropTrailing (y.dropWhile isSpaceChar) = y
  rw [dropWhile_space_fix y h1]
  exact h2

theorem normalizeList_idem (l : List Char) (hnl : ∀ a ∈ l, a ≠ '\n') :
    normalizeList (normalizeList l) = normalizeList l := by
  have hclass := charClass_normalizeList l
  have hlower := lowerFix_normalizeList l
  have hnl1 : ∀ a ∈ pyLower l, a ≠ '\n' := by
    intro a ha
    rcases List.mem_map.mp ha with ⟨b, hb, he⟩
    rw [← he]
    exact pyLowerChar_ne_newline b (hnl b hb)
  have hnl2 : ∀ a ∈ stripSpan '(' ')' (pyLower l), a ≠ '\n' := by
    intro a ha
    rcases mem_stripSpan _ _ _ a ha with h | h
    · exact hnl1 a h
    · rw [h]; decide
  have hnl3 : ∀ a ∈ stripSpan '[' ']' (stripSpan '(' ')' (pyLower l)),
      a ≠ '\n' := by
    intro a ha
    rcases mem_stripSpan _ _ _ a ha with h | h
    · exact hnl2 a h
    · rw [h]; decide
  have hnl4 : ∀ a ∈ stripSpan '{' '}'
      (stripSpan '[' ']' (stripSpan '(' ')' (pyLower l))), a ≠ '\n' := by
    intro a ha
    rcases mem_stripSpan _ _ _ a ha with h | h
    · exact hnl3 a h
    · rw [h]; decide
  have hfeat5 := stripFeat_no_featRun
    (stripSpan '{' '}' (stripSpan '[' ']' (stripSpan '(' ')' (pyLower l))))
    hnl4
  have hfeatY : ∀ w ∈ wordRuns (normalizeList l), w ∉ featWords := by
    intro w hw
    apply hfeat5 w
    unfold normalizeList wordRuns pyStrip collapseWs at hw
    rw [wordRunsGo_dropTrailing] at hw
    rw [wordRunsGo_dropWhile_space] at hw
    rw [wordRunsGo_collapseGo _ false [] (fun _ => rfl)] at hw
    rw [wordRunsGo_stripPunct _ []] at hw
    exact wordRuns_firstSegment_sub _ [] w hw
  have hne_paren : ∀ a ∈ normalizeList l, a ≠ '(' := by
    intro a ha he
    rcases hclass a ha with hw | hs
    · rw [he] at hw; exact absurd hw (by decide)
    · rw [he] at hs; exact absurd hs (by decide)
  have hne_brack : ∀ a ∈ normalizeList l, a ≠ '[' := by
    intro a ha he
    rcases hclass a ha with hw | hs
    · rw [he] at hw; exact absurd hw (by decide)
    · rw [he] at hs; exact absurd hs (by decide)
  have hne_brace : ∀ a ∈ normalizeList l, a ≠ '{' := by
    intro a ha he
    rcases hclass a ha with hw | hs
    · rw [he] at hw; exact absurd hw (by decide)
    · rw [he] at hs; exact absurd hs (by decide)
  have hdash : ∀ a ∈ normalizeList l, isDashChar a = false := by
    intro a ha
    rcases hclass a ha with hw | hs
    · exact word_not_dash a hw
    · rw [hs]; decide
  have hfix1 : pyLower (normalizeList l) = normalizeList l :=
    pyLower_fix _ hlower
  have hfix2 : stripSpan '(' ')' (normalizeList l) = normalizeList l :=
    stripSpanGo_fix '(' ')' _ hne_paren
  have hfix3 : stripSpan '[' ']' (normalizeList l) = normalizeList l :=
    stripSpanGo_fix '[' ']' _ hne_brack
  have hfix4 : stripSpan '{' '}' (normalizeList l) = normalizeList l :=
    stripSpanGo_fix '{' '}' _ hne_brace
  have hfix5 : stripFeat (normalizeList l) = normalizeList l :=
    stripFeat_fix _ hfeatY
  have hfix6 : firstSegment (normalizeList l) = normalizeList l :=
    firstSegment_fix _ hdash
  have hfix7 : stripPunct (normalizeList l) = normalizeList l :=
    stripPunct_fix _ hclass
  have hy := pyStrip_collapse_layout
    (stripPunct (firstSegment (stripFeat
      (stripSpan '{' '}' (stripSpan '[' ']' (stripSpan '(' ')' (pyLower l)))))))
  have hfix8 : collapseWs (normalizeList l) = normalizeList l :=
    collapseGo_fix _ hy.1
  have hfix9 : pyStrip (normalizeList l) = normalizeList l :=
    pyStrip_fix_of _ hy.2.1 hy.2.2
  conv_lhs => rw [show normalizeList (normalizeList l) =
    pyStrip (collapseWs (stripPunct (firstSegment (stripFeat
      (stripSpan '{' '}' (stripSpan '[' ']' (stripSpan '(' ')'
        (pyLower (normalizeList l))))))))) from rfl]
  rw [hfix1, hfix2, hfix3, hfix4, hfix5, hfix6, hfix7, hfix8, hfix9]

/-- C8 (corrected): `normalize_title` is NOT idempotent on all strings (see
the counterexample below, driven by an interior newline: `.*$` in the
feat-removal regex cannot cross a `'\n'`, but the whitespace collapse
then erases it, exposing a fresh `feat` word to the second pass).
Amended claim: `normalize_title` is idempotent on every string that
contains no newline character. -/
theorem c8_normalize_idem (s : String) (h : '\n' ∉ s.data) :
    normalize_title (normalize_title s) = normalize_title s := by
  by_cases hs : s = ""
  · subst hs; rfl
  · have hstep : normalize_title s = ⟨normalizeList s.data⟩ := by
      unfold normalize_title; rw [if_neg hs]
    rw [hstep]
    by_cases h2 : (String.mk (normalizeList s.data)) = ""
    · rw [h2]; rfl
    · unfold normalize_title
      rw [if_neg h2]
      exact congrArg String.mk
        (normalizeList_idem s.data (fun a ha he => h (he ▸ ha)))

theorem c8_witness :
    '\n' ∉ ("Blinding Lights (feat. X) - Live" : String).data ∧
    normalize_title (normalize_title "Blinding Lights (feat. X) - Live") =
      normalize_title "Blinding Lights (feat. X) - Live" :=
  ⟨by decide, c8_normalize_idem "Blinding Lights (feat. X) - Live" (by decide)⟩

theorem c8_cex :
    normalize_title (normalize_title "feat a\nb") ≠
      normalize_title "feat a\nb" := by
  decide
